import Mathlib

/-!
# Verification of the tic-tac-toe game core

This development shallowly embeds the game-state engine of the repository's
tic-tac-toe application: the win detection (`checkWinner`), the minimax move
selector in its unmemoized form (`src/unnamed/part_001`) and its memoized
form (`src/src/App.tsx`), the difficulty dispatch (`getBestMove`), and the
game-controller state machine (`handleCellClick` and the CPU-move effect).

JavaScript `null` cells are modelled as `Option.none`; a board is the JS
array `Player[]` (well-formed boards have length 9, which theorems assume as
a hypothesis).  JS numbers appearing as minimax scores are modelled by
`JsNum`, integers extended with the two infinities used as fold seeds
(`Number.NEGATIVE_INFINITY` / `Number.POSITIVE_INFINITY`).  The in-place
mutation `squares[i] = 'O'; ...; squares[i] = null` of the source is embedded
by threading the array state through every call, so that restoration of the
caller's array is a provable statement rather than an assumption.  The
memoization `Map` is embedded as an association list threaded in state-passing
style; `Map.prototype.set` is modelled by consing (the most recent binding
shadows older ones, extensionally equal to overwriting).

Recursion of the source is bounded by the number of empty cells; the
embedding uses a fuel parameter (10 exceeds the deepest possible recursion,
9 placements plus the final terminal check) and a stabilization lemma shows
the value is fuel-independent above that bound.
-/

namespace TTT

/-- The two marks, `'X'` and `'O'` of the source. -/
inductive Mark : Type where
  | X : Mark
  | O : Mark
deriving DecidableEq, Repr

/-- A cell of the board: the source type `Player = 'X' | 'O' | null`;
`none` models `null`. -/
abbrev Cell := Option Mark

/-- A board: the source type `Board = Player[]`.  Well-formed boards have
length 9; claims carry that as a hypothesis. -/
abbrev Board := List Cell

/-- The eight win lines (3 rows, 3 columns, 2 diagonals), in the exact order
of `winPatterns` in `src/src/App.tsx` (identical in `src/unnamed/part_001`). -/
def winPatterns : List (Nat × Nat × Nat) :=
  [(0, 1, 2), (3, 4, 5), (6, 7, 8),
   (0, 3, 6), (1, 4, 7), (2, 5, 8),
   (0, 4, 8), (2, 4, 6)]

/-- The `for (const pattern of winPatterns)` loop of `checkWinner`: the JS
condition `squares[a] && squares[a] === squares[b] && squares[a] === squares[c]`
returns the first matching pattern with its mark.  Out-of-range JS indexing
yields `undefined`, which is falsy, modelled by the `getD _ none` default. -/
def checkWinnerGo (squares : Board) : List (Nat × Nat × Nat) → Option Mark × Option (Nat × Nat × Nat)
  | [] => (none, none)
  | p :: rest =>
    match squares.getD p.1 none with
    | some v =>
      if squares.getD p.2.1 none = some v ∧ squares.getD p.2.2 none = some v then
        (some v, some p)
      else checkWinnerGo squares rest
    | none => checkWinnerGo squares rest

/-- `checkWinner` of `src/src/App.tsx` (lines 195–203): returns
`{ winner, line }` for the first complete win line, else `{ null, null }`. -/
def checkWinner (squares : Board) : Option Mark × Option (Nat × Nat × Nat) :=
  checkWinnerGo squares winPatterns

/-- `squares.every(s => s !== null)`: the board-full test used by `minimax`,
`handleCellClick` and the CPU effect. -/
def isFull (squares : Board) : Bool :=
  squares.all fun s => s.isSome

/-- The spec's `Outcome` type: `InProgress`, `Won(mark, line)`, `Draw`. -/
inductive Outcome : Type where
  | InProgress : Outcome
  | Won : Mark → Nat × Nat × Nat → Outcome
  | Draw : Outcome
deriving DecidableEq, Repr

/-- The spec's `evaluate`: derived from the outcome branching the controller
performs after every move (`handleCellClick` and the CPU effect): a completed
line wins, else a full board is a draw, else the game continues. -/
def evaluate (squares : Board) : Outcome :=
  match checkWinner squares with
  | (some w, some l) => Outcome.Won w l
  | _ => if isFull squares then Outcome.Draw else Outcome.InProgress

/-- JS numbers as they occur in the minimax code: integers plus
`Number.NEGATIVE_INFINITY` and `Number.POSITIVE_INFINITY` (fold seeds). -/
inductive JsNum : Type where
  | negInf : JsNum
  | fin : ℤ → JsNum
  | posInf : JsNum
deriving DecidableEq, Repr

/-- The JS `<` comparison on the numbers above (no NaN arises). -/
def jlt : JsNum → JsNum → Bool
  | _, JsNum.negInf => false
  | JsNum.negInf, _ => true
  | JsNum.fin m, JsNum.fin n => decide (m < n)
  | JsNum.fin _, JsNum.posInf => true
  | JsNum.posInf, _ => false

/-- The JS `<=` comparison (derived; used only in statements). -/
def jle (a b : JsNum) : Bool := !(jlt b a)

/-- `Math.max` on the numbers above. -/
def jmax (a b : JsNum) : JsNum := if jlt a b then b else a

/-- `Math.min` on the numbers above. -/
def jmin (a b : JsNum) : JsNum := if jlt b a then b else a

/-- One iteration of the `for (let i = 0; i < 9; i++)` loops of `minimax`:
on an empty cell, combine (`Math.max` or `Math.min`) the score of the board
with the mover's mark placed at `i` into the running best score. -/
def scanLoop (squares : Board) (score : Nat → JsNum) (comb : JsNum → JsNum → JsNum)
    (bestScore : JsNum) (i : Nat) : JsNum :=
  if squares.getD i none = none then comb (score i) bestScore else bestScore

/-- The unmemoized `minimax` of `src/unnamed/part_001` (lines 32–62), with a
fuel parameter bounding the recursion depth (the source recursion terminates
because every recursive call fills one empty cell).  The `fuel = 0` branch is
never reached when `fuel` exceeds the number of empty cells. -/
def minimaxF : Nat → Board → Nat → Bool → JsNum
  | 0, _, _, _ => JsNum.fin 0
  | fuel + 1, squares, depth, isMaximizing =>
    let result := checkWinner squares
    if result.1 = some Mark.O then JsNum.fin (10 - (depth : ℤ))
    else if result.1 = some Mark.X then JsNum.fin ((depth : ℤ) - 10)
    else if isFull squares then JsNum.fin 0
    else if isMaximizing then
      (List.range 9).foldl
        (scanLoop squares
          (fun i => minimaxF fuel (squares.set i (some Mark.O)) (depth + 1) false) jmax)
        JsNum.negInf
    else
      (List.range 9).foldl
        (scanLoop squares
          (fun i => minimaxF fuel (squares.set i (some Mark.X)) (depth + 1) true) jmin)
        JsNum.posInf

/-- `minimax(squares, depth, isMaximizing)` of `src/unnamed/part_001`:
fuel 10 covers any 9-cell board (at most 9 placements plus a terminal check). -/
def minimax (squares : Board) (depth : Nat) (isMaximizing : Bool) : JsNum :=
  minimaxF 10 squares depth isMaximizing

/-- One iteration of the selection loop of `getMinimaxMove`: on an empty
cell, score placing `'O'` there and keep `(score, i)` when the score strictly
beats the running best. -/
def chooseLoop (squares : Board) (acc : JsNum × ℤ) (i : Nat) : JsNum × ℤ :=
  if squares.getD i none = none then
    let score := minimax (squares.set i (some Mark.O)) 0 false
    if jlt acc.1 score then (score, (i : ℤ)) else acc
  else acc

/-- `getMinimaxMove` of `src/unnamed/part_001` (lines 78–96): scan cells 0→8,
score placing `'O'` with `minimax(·, 0, false)`, keep the first strictly best
score; `-1` when no cell is empty. -/
def getMinimaxMove (squares : Board) : ℤ :=
  ((List.range 9).foldl (chooseLoop squares) (JsNum.negInf, (-1 : ℤ))).2

/-- The memoization cache of `src/src/App.tsx` (`minimaxCache`, a
`Map<string, number>`), as an association list; the most recent binding wins. -/
abbrev Cache := List (String × JsNum)

/-- How `Array.prototype.join('')` renders one cell: `null` becomes the
empty string. -/
def cellStr : Cell → String
  | some Mark.X => "X"
  | some Mark.O => "O"
  | none => ""

/-- The cache key `squares.join('') + depth + isMaximizing` of `App.tsx`
line 207.  Note `join` drops `null` cells, so distinct boards can share a key. -/
def joinKey (squares : Board) (depth : Nat) (isMaximizing : Bool) : String :=
  (squares.foldl (fun acc c => acc ++ cellStr c) "")
    ++ toString depth ++ (if isMaximizing then "true" else "false")

/-- `minimaxCache.current.has/get`. -/
def cacheGet (cache : Cache) (k : String) : Option JsNum :=
  List.lookup k cache

/-- `minimaxCache.current.set` (cons = overwrite for lookup purposes). -/
def cacheSet (cache : Cache) (k : String) (v : JsNum) : Cache :=
  (k, v) :: cache

/-- One iteration of the loops of the memoized `minimax` of `src/src/App.tsx`,
in state-passing style (the running best score, the mutated array, and the
cache): on an empty cell of the threaded array, place the mover's mark,
recurse through `recCall`, undo the placement (`squares[i] = null`), and
combine the returned score into the running best. -/
def searchLoop (mark : Mark) (comb : JsNum → JsNum → JsNum)
    (recCall : Board → Cache → JsNum × Board × Cache)
    (st : JsNum × Board × Cache) (i : Nat) : JsNum × Board × Cache :=
  if st.2.1.getD i none = none then
    let r := recCall (st.2.1.set i (some mark)) st.2.2
    (comb r.1 st.1, (r.2.1).set i none, r.2.2)
  else st

/-- One unfolding of the memoized `minimax` of `src/src/App.tsx`
(lines 206–254), embedded in state-passing style with the recursive call
passed as the parameter `recCall`: the mutated `squares` array and the cache
are threaded through and returned.  The cache test/read models
`minimaxCache.current.has(boardKey)` / `.get(boardKey)!`. -/
def appStep (recCall : Board → Nat → Bool → Cache → JsNum × Board × Cache)
    (squares : Board) (depth : Nat) (isMaximizing : Bool) (cache : Cache) :
    JsNum × Board × Cache :=
  let boardKey := joinKey squares depth isMaximizing
  match cacheGet cache boardKey with
  | some v => (v, squares, cache)
  | none =>
    let result := checkWinner squares
    if result.1 = some Mark.O then
      let sc := JsNum.fin (10 - (depth : ℤ))
      (sc, squares, cacheSet cache boardKey sc)
    else if result.1 = some Mark.X then
      let sc := JsNum.fin ((depth : ℤ) - 10)
      (sc, squares, cacheSet cache boardKey sc)
    else if isFull squares then
      (JsNum.fin 0, squares, cacheSet cache boardKey (JsNum.fin 0))
    else if isMaximizing then
      let st := (List.range 9).foldl
        (searchLoop Mark.O jmax (fun sq ch => recCall sq (depth + 1) false ch))
        (JsNum.negInf, squares, cache)
      (st.1, st.2.1, cacheSet st.2.2 boardKey st.1)
    else
      let st := (List.range 9).foldl
        (searchLoop Mark.X jmin (fun sq ch => recCall sq (depth + 1) true ch))
        (JsNum.posInf, squares, cache)
      (st.1, st.2.1, cacheSet st.2.2 boardKey st.1)

/-- The memoized `minimax` of `src/src/App.tsx`: `appStep` iterated with a
fuel bound on the recursion depth, as for the unmemoized `minimaxF`. -/
def minimaxAppF : Nat → Board → Nat → Bool → Cache → JsNum × Board × Cache
  | 0 => fun squares _ _ cache => (JsNum.fin 0, squares, cache)
  | fuel + 1 => appStep (minimaxAppF fuel)

/-- `minimax` of `src/src/App.tsx` at the standard fuel. -/
def minimaxApp (squares : Board) (depth : Nat) (isMaximizing : Bool) (cache : Cache) :
    JsNum × Board × Cache :=
  minimaxAppF 10 squares depth isMaximizing cache

/-- One iteration of the selection loop of `getMinimaxMove` in
`src/src/App.tsx`: on an empty cell of the threaded array, place `'O'`, score
via the memoized minimax at depth 0, undo the placement, and keep
`(score, i)` when the score strictly beats the running best. -/
def selectLoop (st : (JsNum × ℤ) × Board × Cache) (i : Nat) :
    (JsNum × ℤ) × Board × Cache :=
  if st.2.1.getD i none = none then
    let r := minimaxAppF 10 (st.2.1.set i (some Mark.O)) 0 false st.2.2
    let sq2 := (r.2.1).set i none
    if jlt st.1.1 r.1 then ((r.1, (i : ℤ)), sq2, r.2.2)
    else (st.1, sq2, r.2.2)
  else st

/-- `getMinimaxMove` of `src/src/App.tsx` (lines 270–288), state-passing:
returns the chosen index (`-1` if none), the (restored) array and the cache. -/
def getMinimaxMoveApp (squares : Board) (cache : Cache) : ℤ × Board × Cache :=
  let st := (List.range 9).foldl selectLoop ((JsNum.negInf, (-1 : ℤ)), squares, cache)
  (st.1.2, st.2.1, st.2.2)

/-- The difficulty setting. -/
inductive Difficulty : Type where
  | easy : Difficulty
  | hard : Difficulty
deriving DecidableEq, Repr

/-- `squares.map((s, i) => s === null ? i : -1).filter(i => i !== -1)` of
`getBestMove`. -/
def availableMoves (squares : Board) : List ℤ :=
  (squares.enum.map fun p => if p.2 = none then (p.1 : ℤ) else -1).filter fun i => i != -1

/-- `getBestMove` of `src/src/App.tsx` (lines 256–268), with the two
`Math.random()` draws `rand1` (difficulty coin) and `rand2` (uniform pick)
passed explicitly; `Math.floor` is `Int.floor`.  The `getD _ (-1)` default is
unreachable for `rand2 ∈ [0,1)` and a nonempty move list (JS would yield
`undefined` there). -/
def getBestMoveApp (difficulty : Difficulty) (rand1 rand2 : ℚ) (squares : Board)
    (cache : Cache) : ℤ × Board × Cache :=
  if difficulty = Difficulty.easy then
    if rand1 < 3 / 10 then getMinimaxMoveApp squares cache
    else
      let avail := availableMoves squares
      (avail.getD (Int.toNat ⌊rand2 * (avail.length : ℚ)⌋) (-1), squares, cache)
  else getMinimaxMoveApp squares cache

/-- The empty starting board `Array(9).fill(null)`. -/
def emptyBoard : Board := List.replicate 9 none

/-- One full round of the Hard-difficulty game of `src/src/App.tsx` from a
position with X to move: X clicks empty cell `i` (`handleCellClick` places the
mark); if the game is still in progress the CPU effect runs
`getBestMove`/`getMinimaxMove` (hard mode) on a copy and places `'O'` at the
returned index (skipped when it is `-1`, as in the `move !== -1` guard).
The memoization cache persists across rounds, as in the source (it is cleared
only when a new game starts). -/
def hardStep (b : Board) (cache : Cache) (i : Nat) : Board × Cache :=
  let b1 := b.set i (some Mark.X)
  match evaluate b1 with
  | Outcome.InProgress =>
    let r := getMinimaxMoveApp b1 cache
    if r.1 = -1 then (r.2.1, r.2.2)
    else ((r.2.1).set r.1.toNat (some Mark.O), r.2.2)
  | _ => (b1, cache)

/-- Positions (with X to move, or terminal) reachable in a Hard-difficulty
player-vs-CPU game of `src/src/App.tsx`, starting from the empty board and
empty cache, over every possible sequence of X clicks. -/
inductive HardReach : Board → Cache → Prop where
  | init : HardReach emptyBoard []
  | step (b : Board) (cache : Cache) (i : Nat) :
      HardReach b cache → evaluate b = Outcome.InProgress →
      b.getD i none = none → i < 9 →
      HardReach (hardStep b cache i).1 (hardStep b cache i).2

/-- Bounded safety check: from a position with X to move (cache as given),
no sequence of X clicks ever reaches a position that `evaluate` reports as a
win for X, within `fuel` rounds.  `fuel = 0` conservatively reports unsafe. -/
def oSafe : Nat → Board → Cache → Bool
  | 0, _, _ => false
  | fuel + 1, b, cache =>
    match evaluate b with
    | Outcome.Won Mark.X _ => false
    | Outcome.Won Mark.O _ => true
    | Outcome.Draw => true
    | Outcome.InProgress =>
      (List.range 9).all fun i =>
        if b.getD i none = none then
          oSafe fuel (hardStep b cache i).1 (hardStep b cache i).2
        else true

/-- Run a Hard-difficulty game from the start, X clicking the listed cells. -/
def playHard (moves : List Nat) : Board × Cache :=
  moves.foldl (fun s i => hardStep s.1 s.2 i) (emptyBoard, [])

/-- The spec's notion of a complete win line: the three cells of the pattern
hold the same non-empty value. -/
def lineFilled (b : Board) (p : Nat × Nat × Nat) : Prop :=
  b.getD p.1 none ≠ none ∧ b.getD p.2.1 none = b.getD p.1 none ∧
    b.getD p.2.2 none = b.getD p.1 none

instance (b : Board) (p : Nat × Nat × Nat) : Decidable (lineFilled b p) := by
  unfold lineFilled; infer_instance

/-- The board whose three cells on the line `p` hold `mk` and whose other six
cells are empty. -/
def lineBoard (p : Nat × Nat × Nat) (mk : Mark) : Board :=
  (List.range 9).map fun i =>
    if i = p.1 ∨ i = p.2.1 ∨ i = p.2.2 then some mk else none

/-- A cache is well formed when every stored score is a finite number (as is
every score the App code ever stores). -/
def WFCache (c : Cache) : Prop :=
  ∀ kv ∈ c, ∃ n : ℤ, kv.2 = JsNum.fin n

/-- Number of empty cells among indices 0–8 (the quantity that shrinks at
every recursive `minimax` call). -/
def emptyCount (b : Board) : Nat :=
  ((List.range 9).filter fun i => b.getD i none = none).length

/-- The board of the memoization counterexample:
`['null','null','O','O','X','X','X','X','O']`. -/
def c2Board : Board :=
  [none, none, some Mark.O, some Mark.O, some Mark.X,
   some Mark.X, some Mark.X, some Mark.X, some Mark.O]

/-- The game-mode setting of the controller. -/
inductive GameMode : Type where
  | pvp : GameMode
  | pvc : GameMode
deriving DecidableEq, Repr

/-- The controller state of `src/src/App.tsx` relevant to one game: the
`board`, `currentPlayer`, `winner` and `winningLine` `useState` hooks
(`currentPlayer` and `winner` have the nullable source type `Player`). -/
structure GState : Type where
  board : Board
  currentPlayer : Cell
  winner : Cell
  winningLine : Option (Nat × Nat × Nat)
deriving DecidableEq, Repr

/-- The initial state of a game: empty board, X to move, no winner. -/
def initState : GState :=
  { board := emptyBoard, currentPlayer := some Mark.X, winner := none, winningLine := none }

/-- The state update of `handleCellClick` (lines 329–352) once its guard has
passed: place the current player's mark, then either record a winner, record
the draw sentinel `setWinner('O')` on a full board, or pass the turn. -/
def clickStep (s : GState) (i : Nat) : GState :=
  let newBoard := s.board.set i s.currentPlayer
  let result := checkWinner newBoard
  match result.1 with
  | some _ =>
    { s with board := newBoard, winner := result.1, winningLine := result.2 }
  | none =>
    if isFull newBoard then
      { s with board := newBoard, winner := some Mark.O }
    else
      { s with board := newBoard,
               currentPlayer := if s.currentPlayer = some Mark.X then some Mark.O else some Mark.X }

/-- The state update of the CPU-move effect (lines 297–327) once its guard has
passed and a move `m` was chosen: place `'O'`, then the same outcome branching
(the `else` branch hands the turn back to X). -/
def cpuStep (s : GState) (m : Nat) : GState :=
  let newBoard := s.board.set m (some Mark.O)
  let result := checkWinner newBoard
  match result.1 with
  | some _ =>
    { s with board := newBoard, winner := result.1, winningLine := result.2 }
  | none =>
    if isFull newBoard then
      { s with board := newBoard, winner := some Mark.O }
    else
      { s with board := newBoard, currentPlayer := some Mark.X }

/-- Controller states reachable within one game of `src/src/App.tsx` in mode
`mode`, from the initial state.  A click requires an empty target cell, no
winner, and (in PvC mode) that it is not the CPU's turn — the guard of
`handleCellClick`.  A CPU move requires PvC mode, `currentPlayer = 'O'` and no
winner — the guard of the CPU effect; the chosen index `m` is abstracted to an
arbitrary empty cell, which subsumes `getBestMove`'s result for every
difficulty and every random draw (see the move-validity theorem). -/
inductive Reaches (mode : GameMode) : GState → Prop where
  | init : Reaches mode initState
  | click (s : GState) (i : Nat) :
      Reaches mode s → i < 9 → s.board.getD i none = none → s.winner = none →
      ¬ (mode = GameMode.pvc ∧ s.currentPlayer = some Mark.O) →
      Reaches mode (clickStep s i)
  | cpu (s : GState) (m : Nat) :
      Reaches mode s → mode = GameMode.pvc → s.currentPlayer = some Mark.O →
      s.winner = none → m < 9 → s.board.getD m none = none →
      Reaches mode (cpuStep s m)

/-- The derived `isDraw` of `src/src/App.tsx` line 357:
`winner === 'O' && board.every(cell => cell !== null)`. -/
def isDraw (s : GState) : Prop :=
  s.winner = some Mark.O ∧ isFull s.board = true

/-- The spec's example draw board `X O X / X O O / O X X`. -/
def drawBoard : Board :=
  [some Mark.X, some Mark.O, some Mark.X,
   some Mark.X, some Mark.O, some Mark.O,
   some Mark.O, some Mark.X, some Mark.X]

/-- A board with two complete lines: the middle row `(3,4,5)` of `O` and the
bottom row `(6,7,8)` of `X`; the scan order reports the middle row first. -/
def c6Board : Board :=
  [none, none, none,
   some Mark.O, some Mark.O, some Mark.O,
   some Mark.X, some Mark.X, some Mark.X]

/-- The spec's minimax definition (§4.2) for the recursive `score` function:
a board `checkWinner` reports for the maximizer `O` scores `10 − depth`; one
reported for the minimizer `X` scores `depth − 10`; a full lineless board
scores 0; otherwise the value is the max (maximizing role) respectively min
(minimizing role) over all empty cells of the score after placing the mover's
mark with `depth + 1` and the opposite role — phrased as an upper/lower bound
attained at some empty cell. -/
def MinimaxSpec (b : Board) (d : Nat) : Prop :=
  ((checkWinner b).1 = some Mark.O → ∀ m : Bool, minimax b d m = JsNum.fin (10 - (d : ℤ)))
  ∧ ((checkWinner b).1 = some Mark.X → ∀ m : Bool, minimax b d m = JsNum.fin ((d : ℤ) - 10))
  ∧ ((checkWinner b).1 = none → isFull b = true → ∀ m : Bool, minimax b d m = JsNum.fin 0)
  ∧ ((checkWinner b).1 = none → isFull b = false →
      (∀ i : Nat, i < 9 → b.getD i none = none →
        jle (minimax (b.set i (some Mark.O)) (d + 1) false) (minimax b d true) = true)
      ∧ (∃ i : Nat, i < 9 ∧ b.getD i none = none ∧
          minimax b d true = minimax (b.set i (some Mark.O)) (d + 1) false)
      ∧ (∀ i : Nat, i < 9 → b.getD i none = none →
        jle (minimax b d false) (minimax (b.set i (some Mark.X)) (d + 1) true) = true)
      ∧ (∃ i : Nat, i < 9 ∧ b.getD i none = none ∧
          minimax b d false = minimax (b.set i (some Mark.X)) (d + 1) true))

/-- The spec's description of `getMinimaxMove`: it returns an empty cell index
attaining the strictly highest `score(place 'O' at i, 0, minimizing)`, the
first such index in scan order 0→8 (every earlier empty cell scores strictly
lower). -/
def SelectSpec (b : Board) : Prop :=
  ∃ j : Nat, j < 9 ∧ getMinimaxMove b = (j : ℤ) ∧ b.getD j none = none
    ∧ (∀ i : Nat, i < 9 → b.getD i none = none →
        jle (minimax (b.set i (some Mark.O)) 0 false)
          (minimax (b.set j (some Mark.O)) 0 false) = true)
    ∧ (∀ i : Nat, i < 9 → b.getD i none = none → i < j →
        jlt (minimax (b.set i (some Mark.O)) 0 false)
          (minimax (b.set j (some Mark.O)) 0 false) = true)

/-- Number of `'X'` marks on the board. -/
def countX (b : Board) : Nat :=
  b.countP fun c => c = some Mark.X

/-- Number of `'O'` marks on the board. -/
def countO (b : Board) : Nat :=
  b.countP fun c => c = some Mark.O

/-- Invariant of reachable controller states: a 9-cell board, a mover that is
always `'X'` or `'O'`, mark counts that alternate correctly with the mover,
and a `winner` field that is either unset (board line-less and not full), set
by a genuine win (`checkWinner` reports it, with the winning side's mover
parity), or set to the draw sentinel `'O'` on a full line-less board. -/
def CInv (s : GState) : Prop :=
  s.board.length = 9 ∧
  (s.currentPlayer = some Mark.X ∨ s.currentPlayer = some Mark.O) ∧
  (s.winner = none →
    (checkWinner s.board).1 = none ∧ isFull s.board = false ∧
    (s.currentPlayer = some Mark.X → countX s.board = countO s.board) ∧
    (s.currentPlayer = some Mark.O → countX s.board = countO s.board + 1)) ∧
  (∀ w : Mark, s.winner = some w →
    ((checkWinner s.board).1 = some w ∧
      (w = Mark.X → countX s.board = countO s.board + 1) ∧
      (w = Mark.O → countX s.board = countO s.board)) ∨
    (w = Mark.O ∧ isFull s.board = true ∧ (checkWinner s.board).1 = none))

/-! ### Order facts about `JsNum` -/

theorem jlt_irrefl (a : JsNum) : jlt a a = false := by
  cases a <;> simp [jlt]

theorem jle_refl (a : JsNum) : jle a a = true := by
  simp [jle, jlt_irrefl]

theorem jle_of_not_jlt {a b : JsNum} (h : jlt b a = false) : jle a b = true := by
  simp [jle, h]

theorem not_jlt_of_jle {a b : JsNum} (h : jle a b = true) : jlt b a = false := by
  simpa [jle] using h

theorem jle_of_jlt {a b : JsNum} (h : jlt a b = true) : jle a b = true := by
  cases a <;> cases b <;> simp_all [jlt, jle] <;> omega

theorem jle_trans {a b c : JsNum} (h1 : jle a b = true) (h2 : jle b c = true) :
    jle a c = true := by
  cases a <;> cases b <;> cases c <;> simp_all [jlt, jle] <;> omega

theorem jlt_of_jle_of_jlt {a b c : JsNum} (h1 : jle a b = true) (h2 : jlt b c = true) :
    jlt a c = true := by
  cases a <;> cases b <;> cases c <;> simp_all [jlt, jle] <;> omega

theorem jlt_negInf_iff (a : JsNum) : jlt JsNum.negInf a = true ↔ a ≠ JsNum.negInf := by
  cases a <;> simp [jlt]

theorem jle_jmax_left (a b : JsNum) : jle a (jmax a b) = true := by
  by_cases h : jlt a b = true
  · simp only [jmax, h, if_true]; exact jle_of_jlt h
  · simp only [jmax, Bool.not_eq_true] at h
    simp only [jmax, h, if_false, Bool.false_eq_true]
    exact jle_refl a

theorem jle_jmax_right (a b : JsNum) : jle b (jmax a b) = true := by
  by_cases h : jlt a b = true
  · simp only [jmax, h, if_true]; exact jle_refl b
  · simp only [Bool.not_eq_true] at h
    simp only [jmax, h, Bool.false_eq_true, if_false]
    exact jle_of_not_jlt h

theorem jmax_cases (a b : JsNum) : jmax a b = a ∨ jmax a b = b := by
  by_cases h : jlt a b = true <;> simp [jmax, h]

theorem jle_jmin_left (a b : JsNum) : jle (jmin a b) a = true := by
  by_cases h : jlt b a = true
  · simp only [jmin, h, if_true]; exact jle_of_jlt h
  · simp only [Bool.not_eq_true] at h
    simp only [jmin, h, Bool.false_eq_true, if_false]
    exact jle_refl a

theorem jle_jmin_right (a b : JsNum) : jle (jmin a b) b = true := by
  by_cases h : jlt b a = true
  · simp only [jmin, h, if_true]; exact jle_refl b
  · simp only [Bool.not_eq_true] at h
    simp only [jmin, h, Bool.false_eq_true, if_false]
    exact jle_of_not_jlt h

theorem jmin_cases (a b : JsNum) : jmin a b = a ∨ jmin a b = b := by
  by_cases h : jlt b a = true <;> simp [jmin, h]

theorem jmax_fin {x y : JsNum} (hx : ∃ n, x = JsNum.fin n)
    (hy : y = JsNum.negInf ∨ ∃ n, y = JsNum.fin n) : ∃ n, jmax x y = JsNum.fin n := by
  obtain ⟨n, rfl⟩ := hx
  rcases hy with rfl | ⟨m, rfl⟩
  · exact ⟨n, by simp [jmax, jlt]⟩
  · rcases jmax_cases (JsNum.fin n) (JsNum.fin m) with h | h
    · exact ⟨n, h⟩
    · exact ⟨m, h⟩

theorem jmin_fin {x y : JsNum} (hx : ∃ n, x = JsNum.fin n)
    (hy : y = JsNum.posInf ∨ ∃ n, y = JsNum.fin n) : ∃ n, jmin x y = JsNum.fin n := by
  obtain ⟨n, rfl⟩ := hx
  rcases hy with rfl | ⟨m, rfl⟩
  · exact ⟨n, by simp [jmin, jlt]⟩
  · rcases jmin_cases (JsNum.fin n) (JsNum.fin m) with h | h
    · exact ⟨n, h⟩
    · exact ⟨m, h⟩

/-! ### List helper lemmas -/

theorem getD_set_self {l : List Cell} {i : Nat} (a d : Cell) (h : i < l.length) :
    (l.set i a).getD i d = a := by
  simp [List.getD_eq_getElem?_getD, List.getElem?_set, h]

theorem getD_set_ne {l : List Cell} {i j : Nat} (a d : Cell) (h : i ≠ j) :
    (l.set i a).getD j d = l.getD j d := by
  simp [List.getD_eq_getElem?_getD, List.getElem?_set, h]

theorem set_restore : ∀ (b : Board) (i : Nat) (v : Cell),
    b.getD i none = none → (b.set i v).set i none = b
  | [], _, _, _ => rfl
  | c :: t, 0, v, h => by
    simp only [List.getD_eq_getElem?_getD] at h
    simp_all [List.set]
  | c :: t, i + 1, v, h => by
    simp only [List.set]
    have := set_restore t i v (by simpa [List.getD_eq_getElem?_getD] using h)
    rw [this]

/-! ### Characterization of `checkWinner` -/

theorem checkWinnerGo_eq (b : Board) : ∀ L : List (Nat × Nat × Nat),
    checkWinnerGo b L =
      match L.find? (fun p => decide (lineFilled b p)) with
      | some p => (b.getD p.1 none, some p)
      | none => (none, none)
  | [] => rfl
  | p :: rest => by
    by_cases hf : lineFilled b p
    · have hfind : (p :: rest).find? (fun r => decide (lineFilled b r)) = some p :=
        List.find?_cons_of_pos rest (decide_eq_true hf)
      obtain ⟨v, hv⟩ : ∃ v, b.getD p.1 none = some v := by
        cases h : b.getD p.1 none with
        | none => exact absurd h hf.1
        | some v => exact ⟨v, rfl⟩
      have h21 : b.getD p.2.1 none = some v := by rw [hf.2.1, hv]
      have h22 : b.getD p.2.2 none = some v := by rw [hf.2.2, hv]
      rw [hfind]
      simp only [checkWinnerGo, hv]
      rw [if_pos ⟨h21, h22⟩]
    · have hfind : (p :: rest).find? (fun r => decide (lineFilled b r)) =
          rest.find? (fun r => decide (lineFilled b r)) :=
        List.find?_cons_of_neg rest (by simpa using hf)
      rw [hfind]
      cases h1 : b.getD p.1 none with
      | none =>
        simp only [checkWinnerGo, h1]
        exact checkWinnerGo_eq b rest
      | some v =>
        have h2 : ¬ (b.getD p.2.1 none = some v ∧ b.getD p.2.2 none = some v) := by
          intro h2
          exact hf ⟨by rw [h1]; exact Option.some_ne_none v,
            by rw [h2.1, h1], by rw [h2.2, h1]⟩
        simp only [checkWinnerGo, h1]
        rw [if_neg h2]
        exact checkWinnerGo_eq b rest

theorem checkWinner_eq_find (b : Board) :
    checkWinner b =
      match winPatterns.find? (fun p => decide (lineFilled b p)) with
      | some p => (b.getD p.1 none, some p)
      | none => (none, none) :=
  checkWinnerGo_eq b winPatterns

theorem checkWinner_none_iff (b : Board) :
    (checkWinner b).1 = none ↔ ∀ p ∈ winPatterns, ¬ lineFilled b p := by
  cases hf : winPatterns.find? (fun p => decide (lineFilled b p)) with
  | none =>
    have h : checkWinner b = (none, none) := by rw [checkWinner_eq_find, hf]
    rw [h]
    constructor
    · intro _ p hp
      simpa using List.find?_eq_none.mp hf p hp
    · intro _
      rfl
  | some q =>
    have h : checkWinner b = (b.getD q.1 none, some q) := by rw [checkWinner_eq_find, hf]
    have hq : lineFilled b q := by simpa using List.find?_some hf
    have hqm : q ∈ winPatterns := List.mem_of_find?_eq_some hf
    rw [h]
    constructor
    · intro hcontr
      exact absurd hcontr hq.1
    · intro hall
      exact absurd hq (hall q hqm)

theorem checkWinner_none_pair {b : Board} (h : (checkWinner b).1 = none) :
    checkWinner b = (none, none) := by
  cases hf : winPatterns.find? (fun p => decide (lineFilled b p)) with
  | none => rw [checkWinner_eq_find, hf]
  | some q =>
    have heq : checkWinner b = (b.getD q.1 none, some q) := by rw [checkWinner_eq_find, hf]
    have hq : lineFilled b q := by simpa using List.find?_some hf
    rw [heq] at h
    exact absurd h hq.1

theorem checkWinner_some {b : Board} {w : Mark} (h : (checkWinner b).1 = some w) :
    ∃ q, checkWinner b = (some w, some q) ∧ q ∈ winPatterns ∧ lineFilled b q ∧
      b.getD q.1 none = some w := by
  cases hf : winPatterns.find? (fun p => decide (lineFilled b p)) with
  | none =>
    have heq : checkWinner b = (none, none) := by rw [checkWinner_eq_find, hf]
    rw [heq] at h
    exact absurd h (by simp)
  | some q =>
    have heq : checkWinner b = (b.getD q.1 none, some q) := by rw [checkWinner_eq_find, hf]
    have hq : lineFilled b q := by simpa using List.find?_some hf
    have hqm : q ∈ winPatterns := List.mem_of_find?_eq_some hf
    rw [heq] at h
    have h2 : List.getD b q.1 none = some w := h
    exact ⟨q, by rw [heq, h2], hqm, hq, h2⟩

/-! ### Claims C4, C5, C6: win detection, draw detection, first-line tie-break -/

/-- **C4**: for each of the 8 win lines (3 rows, 3 columns, 2 diagonals) and
each mark `m ∈ {X, O}`, evaluating a board whose three cells on that line hold
`m` and whose other six cells are empty yields `Won(m, thatLine)`:
`checkWinner` returns exactly that mark and exactly that index-triple. -/
theorem c4_win_line_detection :
    ∀ p ∈ winPatterns, ∀ mk : Mark,
      checkWinner (lineBoard p mk) = (some mk, some p) ∧
      evaluate (lineBoard p mk) = Outcome.Won mk p := by
  have hX : ∀ p ∈ winPatterns,
      checkWinner (lineBoard p Mark.X) = (some Mark.X, some p) ∧
      evaluate (lineBoard p Mark.X) = Outcome.Won Mark.X p := by decide
  have hO : ∀ p ∈ winPatterns,
      checkWinner (lineBoard p Mark.O) = (some Mark.O, some p) ∧
      evaluate (lineBoard p Mark.O) = Outcome.Won Mark.O p := by decide
  intro p hp mk
  cases mk
  · exact hX p hp
  · exact hO p hp

/-- Witness for C4: the first row filled with `X`. -/
theorem c4_win_line_detection_witness :
    (0, 1, 2) ∈ winPatterns ∧
    checkWinner (lineBoard (0, 1, 2) Mark.X) = (some Mark.X, some (0, 1, 2)) ∧
    evaluate (lineBoard (0, 1, 2) Mark.X) = Outcome.Won Mark.X (0, 1, 2) :=
  ⟨by decide, c4_win_line_detection (0, 1, 2) (by decide) Mark.X⟩

/-- **C5**: on any 9-cell board with no complete win line, evaluation yields
`Draw` when all 9 cells are non-empty and `InProgress` when at least one cell
is empty (so such a board never evaluates to `Won` or `Draw` while a cell
remains empty). -/
theorem c5_draw_vs_inprogress (b : Board) (_hb : b.length = 9)
    (hn : ∀ p ∈ winPatterns, ¬ lineFilled b p) :
    (isFull b = true → evaluate b = Outcome.Draw) ∧
    (isFull b = false → evaluate b = Outcome.InProgress) := by
  have h1 : (checkWinner b).1 = none := (checkWinner_none_iff b).mpr hn
  have h2 : checkWinner b = (none, none) := checkWinner_none_pair h1
  constructor
  · intro hf
    simp [evaluate, h2, hf]
  · intro hf
    simp [evaluate, h2, hf]

/-- Witness for C5: the spec's example draw board `X O X / X O O / O X X`. -/
theorem c5_draw_vs_inprogress_witness :
    drawBoard.length = 9 ∧ (∀ p ∈ winPatterns, ¬ lineFilled drawBoard p) ∧
    ((isFull drawBoard = true → evaluate drawBoard = Outcome.Draw) ∧
     (isFull drawBoard = false → evaluate drawBoard = Outcome.InProgress)) :=
  ⟨by decide, by decide, c5_draw_vs_inprogress drawBoard (by decide) (by decide)⟩

/-- **C6**: on any 9-cell board with at least one complete win line,
`checkWinner` reports the earliest complete line in the fixed scan order of
`winPatterns` (rows `(0,1,2),(3,4,5),(6,7,8)`, then columns, then diagonals) —
formally, the line found by `List.find?` over `winPatterns` — together with
the mark filling it, and `evaluate` reports the corresponding `Won`. -/
theorem c6_first_line_reported (b : Board) (_hb : b.length = 9)
    (hex : ∃ p ∈ winPatterns, lineFilled b p) :
    ∃ q v, winPatterns.find? (fun r => decide (lineFilled b r)) = some q ∧
      lineFilled b q ∧ b.getD q.1 none = some v ∧
      checkWinner b = (some v, some q) ∧
      evaluate b = Outcome.Won v q := by
  obtain ⟨p, hp, hf⟩ := hex
  have hsome : (winPatterns.find? (fun r => decide (lineFilled b r))).isSome := by
    rw [List.find?_isSome]
    exact ⟨p, hp, by simpa using hf⟩
  obtain ⟨q, hq⟩ := Option.isSome_iff_exists.mp hsome
  have hlf : lineFilled b q := by simpa using List.find?_some hq
  obtain ⟨v, hv⟩ : ∃ v, b.getD q.1 none = some v := by
    cases h : b.getD q.1 none with
    | none => exact absurd h hlf.1
    | some v => exact ⟨v, rfl⟩
  have hcw0 : checkWinner b = (b.getD q.1 none, some q) := by
    rw [checkWinner_eq_find, hq]
  have hcw : checkWinner b = (some v, some q) := by
    rw [hcw0, hv]
  refine ⟨q, v, hq, hlf, hv, hcw, ?_⟩
  simp [evaluate, hcw]

/-- Witness for C6: a board where both the middle row `(3,4,5)` and the bottom
row `(6,7,8)` are complete; the earlier pattern `(3,4,5)` is reported. -/
theorem c6_first_line_reported_witness :
    c6Board.length = 9 ∧ (∃ p ∈ winPatterns, lineFilled c6Board p) ∧
    ∃ q v, winPatterns.find? (fun r => decide (lineFilled c6Board r)) = some q ∧
      lineFilled c6Board q ∧ c6Board.getD q.1 none = some v ∧
      checkWinner c6Board = (some v, some q) ∧
      evaluate c6Board = Outcome.Won v q :=
  ⟨by decide, ⟨(3, 4, 5), by decide, by decide⟩,
    c6_first_line_reported c6Board (by decide) ⟨(3, 4, 5), by decide, by decide⟩⟩

set_option maxRecDepth 1000000

/-! ### Claim C2: the memoization changes computed values -/

/-- **C2 counterexample**: at the board `[null,null,'O','O','X','X','X','X','O']`,
depth 0, maximizing role, starting from an empty cache, the memoized `minimax`
of `src/src/App.tsx` returns −8 while the unmemoized `minimax` of
`src/unnamed/part_001` returns 0.  The boards obtained by playing `'O'` at
cell 0 and at cell 1 have the same lossy key `"OOOXXXXO" + depth +
isMaximizing` (JS `join('')` renders `null` as the empty string), so the
second branch reuses the first branch's cached score. -/
theorem c2_memoization_changes_value :
    minimax c2Board 0 true = JsNum.fin 0 ∧
    (minimaxApp c2Board 0 true []).1 = JsNum.fin (-8) ∧
    (minimaxApp c2Board 0 true []).1 ≠ minimax c2Board 0 true :=
  ⟨by decide, by decide, by decide⟩

/-! ### Board restoration: the memoized search returns its input array -/

theorem searchLoop_board (mark : Mark) (comb : JsNum → JsNum → JsNum)
    (recCall : Board → Cache → JsNum × Board × Cache)
    (hrec : ∀ sq ch, (recCall sq ch).2.1 = sq) (st : JsNum × Board × Cache) (i : Nat) :
    (searchLoop mark comb recCall st i).2.1 = st.2.1 := by
  unfold searchLoop
  by_cases hg : st.2.1.getD i none = none
  · rw [if_pos hg]
    show ((recCall (st.2.1.set i (some mark)) st.2.2).2.1).set i none = st.2.1
    rw [hrec, set_restore st.2.1 i (some mark) hg]
  · rw [if_neg hg]

theorem foldl_searchLoop_board (mark : Mark) (comb : JsNum → JsNum → JsNum)
    (recCall : Board → Cache → JsNum × Board × Cache)
    (hrec : ∀ sq ch, (recCall sq ch).2.1 = sq) :
    ∀ (L : List Nat) (acc : JsNum × Board × Cache),
      (L.foldl (searchLoop mark comb recCall) acc).2.1 = acc.2.1 := by
  intro L
  induction L with
  | nil => intro acc; rfl
  | cons i L ihL =>
    intro acc
    rw [List.foldl_cons, ihL, searchLoop_board mark comb recCall hrec]

theorem minimaxAppF_board : ∀ (fuel : ℕ) (b : Board) (d : ℕ) (m : Bool) (c : Cache),
    (minimaxAppF fuel b d m c).2.1 = b := by
  intro fuel
  induction fuel with
  | zero =>
    intro b d m c
    rfl
  | succ f ih =>
    intro b d m c
    rw [minimaxAppF]
    show (appStep (minimaxAppF f) b d m c).2.1 = b
    simp only [appStep]
    cases hcg : cacheGet c (joinKey b d m) with
    | some v => rfl
    | none =>
      by_cases h1 : (checkWinner b).1 = some Mark.O
      · rw [if_pos h1]
      · rw [if_neg h1]
        by_cases h2 : (checkWinner b).1 = some Mark.X
        · rw [if_pos h2]
        · rw [if_neg h2]
          by_cases h3 : isFull b = true
          · rw [if_pos h3]
          · rw [if_neg h3]
            by_cases h4 : m = true
            · rw [if_pos h4]
              dsimp only
              rw [foldl_searchLoop_board Mark.O jmax _
                (fun sq ch => ih sq (d + 1) false ch)]
            · rw [if_neg h4]
              dsimp only
              rw [foldl_searchLoop_board Mark.X jmin _
                (fun sq ch => ih sq (d + 1) true ch)]

theorem selectLoop_board (st : (JsNum × ℤ) × Board × Cache) (i : Nat) :
    (selectLoop st i).2.1 = st.2.1 := by
  simp only [selectLoop]
  by_cases hg : st.2.1.getD i none = none
  · rw [if_pos hg]
    by_cases hj : jlt st.1.1 (minimaxAppF 10 (st.2.1.set i (some Mark.O)) 0 false st.2.2).1 =
        true
    · rw [if_pos hj]
      show ((minimaxAppF 10 (st.2.1.set i (some Mark.O)) 0 false st.2.2).2.1).set i none =
        st.2.1
      rw [minimaxAppF_board, set_restore st.2.1 i (some Mark.O) hg]
    · rw [if_neg hj]
      show ((minimaxAppF 10 (st.2.1.set i (some Mark.O)) 0 false st.2.2).2.1).set i none =
        st.2.1
      rw [minimaxAppF_board, set_restore st.2.1 i (some Mark.O) hg]
  · rw [if_neg hg]

theorem foldl_selectLoop_board :
    ∀ (L : List Nat) (acc : (JsNum × ℤ) × Board × Cache),
      (L.foldl selectLoop acc).2.1 = acc.2.1 := by
  intro L
  induction L with
  | nil => intro acc; rfl
  | cons i L ihL =>
    intro acc
    rw [List.foldl_cons, ihL, selectLoop_board]

theorem getMinimaxMoveApp_board (b : Board) (c : Cache) :
    (getMinimaxMoveApp b c).2.1 = b := by
  unfold getMinimaxMoveApp
  dsimp only
  rw [foldl_selectLoop_board]

theorem getBestMoveApp_board (diff : Difficulty) (r1 r2 : ℚ) (b : Board) (c : Cache) :
    (getBestMoveApp diff r1 r2 b c).2.1 = b := by
  unfold getBestMoveApp
  split_ifs with h1 h2
  · exact getMinimaxMoveApp_board b c
  · rfl
  · exact getMinimaxMoveApp_board b c

/-- **C8**: move selection never leaks mutations to its input: the array state
returned by the memoized `minimax` (every recursive call), by `getMinimaxMove`
and by `getBestMove` of `src/src/App.tsx` is exactly the array passed in —
every hypothetical placement made during the search is undone. -/
theorem c8_search_restores_board (fuel : ℕ) (b : Board) (d : ℕ) (m : Bool) (c : Cache)
    (diff : Difficulty) (r1 r2 : ℚ) :
    (minimaxAppF fuel b d m c).2.1 = b ∧
    (getMinimaxMoveApp b c).2.1 = b ∧
    (getBestMoveApp diff r1 r2 b c).2.1 = b :=
  ⟨minimaxAppF_board fuel b d m c, getMinimaxMoveApp_board b c,
    getBestMoveApp_board diff r1 r2 b c⟩

/-! ### Claim C1: the Hard selector can lose -/

/-- **C1 counterexample**: the position after the legal Hard-mode game in
which X clicks cells 0, 2, 4, 6 (the CPU, running `getBestMove` with
difficulty hard on the memoized minimax, replies 1, 3, 5) is reachable from
the empty board, and `evaluate` reports it as `Won(X, (2,4,6))` — the
colliding memoization keys make every candidate reply score equal, so the
Hard selector always plays the first empty cell and loses. -/
theorem c1_hard_selector_loses :
    HardReach (playHard [0, 2, 4, 6]).1 (playHard [0, 2, 4, 6]).2 ∧
    evaluate (playHard [0, 2, 4, 6]).1 = Outcome.Won Mark.X (2, 4, 6) := by
  constructor
  · have h0 : HardReach emptyBoard [] := HardReach.init
    have h1 : HardReach (hardStep emptyBoard [] 0).1 (hardStep emptyBoard [] 0).2 :=
      HardReach.step emptyBoard [] 0 h0 (by decide) (by decide) (by decide)
    have h2 := HardReach.step _ _ 2 h1 (by decide) (by decide) (by decide)
    have h3 := HardReach.step _ _ 4 h2 (by decide) (by decide) (by decide)
    have h4 := HardReach.step _ _ 6 h3 (by decide) (by decide) (by decide)
    exact h4
  · decide

theorem checkWinner_ne_none {b : Board} {p : Nat × Nat × Nat}
    (hp : p ∈ winPatterns) (hf : lineFilled b p) : (checkWinner b).1 ≠ none := by
  intro h
  exact (checkWinner_none_iff b).mp h p hp hf

/-- The mark of a line completed by placing `v` at an empty cell of a lineless
board is `v` itself: any complete line of the new board passes through the
changed cell. -/
theorem checkWinner_set_value {b : Board} {i : Nat} {v : Cell} {w : Mark}
    (hi : i < b.length) (hn : (checkWinner b).1 = none)
    (hw : (checkWinner (b.set i v)).1 = some w) : v = some w := by
  obtain ⟨q, _, hqm, hq, hval⟩ := checkWinner_some hw
  by_cases hmem : i = q.1 ∨ i = q.2.1 ∨ i = q.2.2
  · have hval1 : (b.set i v).getD q.1 none = some w := hval
    have hval2 : (b.set i v).getD q.2.1 none = some w := by rw [hq.2.1]; exact hval
    have hval3 : (b.set i v).getD q.2.2 none = some w := by rw [hq.2.2]; exact hval
    rcases hmem with rfl | rfl | rfl
    · rw [getD_set_self v none hi] at hval1; exact hval1
    · rw [getD_set_self v none hi] at hval2; exact hval2
    · rw [getD_set_self v none hi] at hval3; exact hval3
  · push_neg at hmem
    obtain ⟨h1, h2, h3⟩ := hmem
    have hq1 : b.getD q.1 none = (b.set i v).getD q.1 none := (getD_set_ne v none h1).symm
    have hq2 : b.getD q.2.1 none = (b.set i v).getD q.2.1 none := (getD_set_ne v none h2).symm
    have hq3 : b.getD q.2.2 none = (b.set i v).getD q.2.2 none := (getD_set_ne v none h3).symm
    have : lineFilled b q := by
      refine ⟨?_, ?_, ?_⟩
      · rw [hq1]; exact hq.1
      · rw [hq2, hq1]; exact hq.2.1
      · rw [hq3, hq1]; exact hq.2.2
    exact absurd hn (checkWinner_ne_none hqm this)

/-! ### Counting empty cells and the fuel-independent unfolding of `minimax` -/

theorem emptyCount_le (b : Board) : emptyCount b ≤ 9 := by
  unfold emptyCount
  exact (List.length_filter_le _ _).trans (by simp)

theorem filter_length_update {q qp : Nat → Bool} :
    ∀ (L : List Nat) (i : Nat), L.Nodup → i ∈ L → q i = true → qp i = false →
      (∀ j, j ≠ i → qp j = q j) → (L.filter qp).length + 1 = (L.filter q).length := by
  intro L
  induction L with
  | nil =>
    intro i _ hmem
    exact absurd hmem (List.not_mem_nil i)
  | cons a L ihL =>
    intro i hnd hmem hq hqp hoth
    have hnd2 := List.nodup_cons.mp hnd
    rcases List.mem_cons.mp hmem with rfl | hmem2
    · rw [List.filter_cons_of_pos hq, List.filter_cons_of_neg (by simp [hqp])]
      have : L.filter qp = L.filter q := by
        apply List.filter_congr
        intro x hx
        exact hoth x (fun h => hnd2.1 (h ▸ hx))
      rw [this, List.length_cons]
    · have hai : a ≠ i := fun h => hnd2.1 (h ▸ hmem2)
      have ha : qp a = q a := hoth a hai
      by_cases hqa : q a = true
      · rw [List.filter_cons_of_pos hqa, List.filter_cons_of_pos (ha.trans hqa),
          List.length_cons, List.length_cons]
        have := ihL i hnd2.2 hmem2 hq hqp hoth
        omega
      · have hqa2 : q a = false := by simpa using hqa
        rw [List.filter_cons_of_neg (by simp [ha.trans hqa2]),
          List.filter_cons_of_neg (by simp [hqa2])]
        exact ihL i hnd2.2 hmem2 hq hqp hoth

theorem emptyCount_set (b : Board) (i : Nat) (mk : Mark) (hi : i < 9)
    (hb : b.length = 9) (hg : b.getD i none = none) :
    emptyCount (b.set i (some mk)) + 1 = emptyCount b := by
  unfold emptyCount
  apply filter_length_update (List.range 9) i (List.nodup_range 9)
    (List.mem_range.mpr hi)
  · simpa using hg
  · have hset : (b.set i (some mk)).getD i none = some mk :=
      getD_set_self (some mk) none (hb ▸ hi)
    show decide ((b.set i (some mk)).getD i none = none) = false
    rw [hset]
    rfl
  · intro j hj
    have hset : (b.set i (some mk)).getD j none = b.getD j none :=
      getD_set_ne (some mk) none (fun h => hj h.symm)
    show decide ((b.set i (some mk)).getD j none = none) =
      decide (b.getD j none = none)
    rw [hset]

theorem exists_empty_of_not_full (b : Board) (hb : b.length = 9) (hf : isFull b = false) :
    ∃ i, i < 9 ∧ b.getD i none = none := by
  unfold isFull at hf
  obtain ⟨x, hmem, hx⟩ := List.all_eq_false.mp hf
  have hxn : x = none := by
    cases x with
    | none => rfl
    | some v => simp at hx
  obtain ⟨j, hj, hget⟩ := List.mem_iff_getElem.mp hmem
  refine ⟨j, hb ▸ hj, ?_⟩
  rw [List.getD_eq_getElem b none hj, hget, hxn]

theorem emptyCount_pos (b : Board) (hb : b.length = 9) (hf : isFull b = false) :
    0 < emptyCount b := by
  obtain ⟨i, hi, hgi⟩ := exists_empty_of_not_full b hb hf
  have : i ∈ (List.range 9).filter fun i => b.getD i none = none :=
    List.mem_filter.mpr ⟨List.mem_range.mpr hi, by simpa using hgi⟩
  exact List.length_pos_of_mem this

theorem minimaxF_congr : ∀ (f g : ℕ) (b : Board) (d : ℕ) (m : Bool), b.length = 9 →
    emptyCount b < f → emptyCount b < g → minimaxF f b d m = minimaxF g b d m := by
  intro f
  induction f with
  | zero =>
    intro g b d m _ hf
    exact absurd hf (Nat.not_lt_zero _)
  | succ f ihf =>
    intro g b d m hb hf hg
    cases g with
    | zero => exact absurd hg (Nat.not_lt_zero _)
    | succ g =>
      simp only [minimaxF]
      by_cases h1 : (checkWinner b).1 = some Mark.O
      · rw [if_pos h1, if_pos h1]
      · rw [if_neg h1, if_neg h1]
        by_cases h2 : (checkWinner b).1 = some Mark.X
        · rw [if_pos h2, if_pos h2]
        · rw [if_neg h2, if_neg h2]
          by_cases h3 : isFull b = true
          · rw [if_pos h3, if_pos h3]
          · rw [if_neg h3, if_neg h3]
            have hpos : 0 < emptyCount b := emptyCount_pos b hb (by simpa using h3)
            by_cases h4 : m = true
            · rw [if_pos h4, if_pos h4]
              apply List.foldl_ext
              intro acc i hi
              unfold scanLoop
              by_cases hgi : b.getD i none = none
              · rw [if_pos hgi, if_pos hgi]
                have hcount := emptyCount_set b i Mark.O (List.mem_range.mp hi) hb hgi
                exact congrArg (fun x => jmax x acc)
                  (ihf g (b.set i (some Mark.O)) (d + 1) false
                    (by rw [List.length_set]; exact hb) (by omega) (by omega))
              · rw [if_neg hgi, if_neg hgi]
            · rw [if_neg h4, if_neg h4]
              apply List.foldl_ext
              intro acc i hi
              unfold scanLoop
              by_cases hgi : b.getD i none = none
              · rw [if_pos hgi, if_pos hgi]
                have hcount := emptyCount_set b i Mark.X (List.mem_range.mp hi) hb hgi
                exact congrArg (fun x => jmin x acc)
                  (ihf g (b.set i (some Mark.X)) (d + 1) true
                    (by rw [List.length_set]; exact hb) (by omega) (by omega))
              · rw [if_neg hgi, if_neg hgi]

theorem minimax_eq (b : Board) (d : ℕ) (m : Bool) (hb : b.length = 9) :
    minimax b d m =
      if (checkWinner b).1 = some Mark.O then JsNum.fin (10 - (d : ℤ))
      else if (checkWinner b).1 = some Mark.X then JsNum.fin ((d : ℤ) - 10)
      else if isFull b then JsNum.fin 0
      else if m then
        (List.range 9).foldl
          (scanLoop b (fun i => minimax (b.set i (some Mark.O)) (d + 1) false) jmax)
          JsNum.negInf
      else
        (List.range 9).foldl
          (scanLoop b (fun i => minimax (b.set i (some Mark.X)) (d + 1) true) jmin)
          JsNum.posInf := by
  show minimaxF (9 + 1) b d m = _
  rw [minimaxF]
  by_cases h1 : (checkWinner b).1 = some Mark.O
  · rw [if_pos h1, if_pos h1]
  · rw [if_neg h1, if_neg h1]
    by_cases h2 : (checkWinner b).1 = some Mark.X
    · rw [if_pos h2, if_pos h2]
    · rw [if_neg h2, if_neg h2]
      by_cases h3 : isFull b = true
      · rw [if_pos h3, if_pos h3]
      · rw [if_neg h3, if_neg h3]
        have hpos : 0 < emptyCount b := emptyCount_pos b hb (by simpa using h3)
        have hle : emptyCount b ≤ 9 := emptyCount_le b
        by_cases h4 : m = true
        · rw [if_pos h4, if_pos h4]
          apply List.foldl_ext
          intro acc i hi
          unfold scanLoop
          by_cases hgi : b.getD i none = none
          · rw [if_pos hgi, if_pos hgi]
            have hcount := emptyCount_set b i Mark.O (List.mem_range.mp hi) hb hgi
            exact congrArg (fun x => jmax x acc)
              (minimaxF_congr 9 10 (b.set i (some Mark.O)) (d + 1) false
                (by rw [List.length_set]; exact hb) (by omega) (by omega))
          · rw [if_neg hgi, if_neg hgi]
        · rw [if_neg h4, if_neg h4]
          apply List.foldl_ext
          intro acc i hi
          unfold scanLoop
          by_cases hgi : b.getD i none = none
          · rw [if_pos hgi, if_pos hgi]
            have hcount := emptyCount_set b i Mark.X (List.mem_range.mp hi) hb hgi
            exact congrArg (fun x => jmin x acc)
              (minimaxF_congr 9 10 (b.set i (some Mark.X)) (d + 1) true
                (by rw [List.length_set]; exact hb) (by omega) (by omega))
          · rw [if_neg hgi, if_neg hgi]

/-! ### Finiteness of minimax scores and max/min fold characterization -/

theorem foldl_scanLoop_max_fin (b : Board) (s : Nat → JsNum)
    (hs : ∀ i, i < 9 → b.getD i none = none → ∃ n, s i = JsNum.fin n) :
    ∀ (L : List Nat) (acc : JsNum), (∀ i ∈ L, i < 9) →
      (acc = JsNum.negInf ∨ ∃ n, acc = JsNum.fin n) →
      ((∃ i ∈ L, b.getD i none = none) ∨ ∃ n, acc = JsNum.fin n) →
      ∃ n, L.foldl (scanLoop b s jmax) acc = JsNum.fin n := by
  intro L
  induction L with
  | nil =>
    intro acc _ _ hex
    rcases hex with ⟨i, hmem, _⟩ | hfin
    · exact absurd hmem (List.not_mem_nil i)
    · exact hfin
  | cons i L ihL =>
    intro acc hlt hacc hex
    rw [List.foldl_cons]
    by_cases hgi : b.getD i none = none
    · have hstep : scanLoop b s jmax acc i = jmax (s i) acc := by
        unfold scanLoop
        rw [if_pos hgi]
      rw [hstep]
      have hfin : ∃ n, jmax (s i) acc = JsNum.fin n :=
        jmax_fin (hs i (hlt i (List.mem_cons_self i L)) hgi) hacc
      exact ihL (jmax (s i) acc) (fun j hj => hlt j (List.mem_cons_of_mem i hj))
        (Or.inr hfin) (Or.inr hfin)
    · have hstep : scanLoop b s jmax acc i = acc := by
        unfold scanLoop
        rw [if_neg hgi]
      rw [hstep]
      refine ihL acc (fun j hj => hlt j (List.mem_cons_of_mem i hj)) hacc ?_
      rcases hex with ⟨i2, hmem, hg2⟩ | hfin
      · rcases List.mem_cons.mp hmem with rfl | hmem2
        · exact absurd hg2 hgi
        · exact Or.inl ⟨i2, hmem2, hg2⟩
      · exact Or.inr hfin

theorem foldl_scanLoop_min_fin (b : Board) (s : Nat → JsNum)
    (hs : ∀ i, i < 9 → b.getD i none = none → ∃ n, s i = JsNum.fin n) :
    ∀ (L : List Nat) (acc : JsNum), (∀ i ∈ L, i < 9) →
      (acc = JsNum.posInf ∨ ∃ n, acc = JsNum.fin n) →
      ((∃ i ∈ L, b.getD i none = none) ∨ ∃ n, acc = JsNum.fin n) →
      ∃ n, L.foldl (scanLoop b s jmin) acc = JsNum.fin n := by
  intro L
  induction L with
  | nil =>
    intro acc _ _ hex
    rcases hex with ⟨i, hmem, _⟩ | hfin
    · exact absurd hmem (List.not_mem_nil i)
    · exact hfin
  | cons i L ihL =>
    intro acc hlt hacc hex
    rw [List.foldl_cons]
    by_cases hgi : b.getD i none = none
    · have hstep : scanLoop b s jmin acc i = jmin (s i) acc := by
        unfold scanLoop
        rw [if_pos hgi]
      rw [hstep]
      have hfin : ∃ n, jmin (s i) acc = JsNum.fin n :=
        jmin_fin (hs i (hlt i (List.mem_cons_self i L)) hgi) hacc
      exact ihL (jmin (s i) acc) (fun j hj => hlt j (List.mem_cons_of_mem i hj))
        (Or.inr hfin) (Or.inr hfin)
    · have hstep : scanLoop b s jmin acc i = acc := by
        unfold scanLoop
        rw [if_neg hgi]
      rw [hstep]
      refine ihL acc (fun j hj => hlt j (List.mem_cons_of_mem i hj)) hacc ?_
      rcases hex with ⟨i2, hmem, hg2⟩ | hfin
      · rcases List.mem_cons.mp hmem with rfl | hmem2
        · exact absurd hg2 hgi
        · exact Or.inl ⟨i2, hmem2, hg2⟩
      · exact Or.inr hfin

theorem minimax_isFin_aux : ∀ (k : ℕ) (b : Board) (d : ℕ) (m : Bool), b.length = 9 →
    emptyCount b ≤ k → ∃ n, minimax b d m = JsNum.fin n := by
  intro k
  induction k with
  | zero =>
    intro b d m hb hk
    rw [minimax_eq b d m hb]
    by_cases h1 : (checkWinner b).1 = some Mark.O
    · rw [if_pos h1]; exact ⟨_, rfl⟩
    · rw [if_neg h1]
      by_cases h2 : (checkWinner b).1 = some Mark.X
      · rw [if_pos h2]; exact ⟨_, rfl⟩
      · rw [if_neg h2]
        by_cases h3 : isFull b = true
        · rw [if_pos h3]; exact ⟨_, rfl⟩
        · have := emptyCount_pos b hb (by simpa using h3)
          omega
  | succ k ihk =>
    intro b d m hb hk
    rw [minimax_eq b d m hb]
    by_cases h1 : (checkWinner b).1 = some Mark.O
    · rw [if_pos h1]; exact ⟨_, rfl⟩
    · rw [if_neg h1]
      by_cases h2 : (checkWinner b).1 = some Mark.X
      · rw [if_pos h2]; exact ⟨_, rfl⟩
      · rw [if_neg h2]
        by_cases h3 : isFull b = true
        · rw [if_pos h3]; exact ⟨_, rfl⟩
        · rw [if_neg h3]
          have hpos : 0 < emptyCount b := emptyCount_pos b hb (by simpa using h3)
          have hex := exists_empty_of_not_full b hb (by simpa using h3)
          have hs : ∀ (mk : Mark) (role : Bool) (i : Nat), i < 9 → b.getD i none = none →
              ∃ n, minimax (b.set i (some mk)) (d + 1) role = JsNum.fin n := by
            intro mk role i hi hgi
            have hcount := emptyCount_set b i mk hi hb hgi
            exact ihk (b.set i (some mk)) (d + 1) role
              (by rw [List.length_set]; exact hb) (by omega)
          by_cases h4 : m = true
          · rw [if_pos h4]
            apply foldl_scanLoop_max_fin b _ (hs Mark.O false) (List.range 9)
              JsNum.negInf (fun i hi => List.mem_range.mp hi) (Or.inl rfl)
            obtain ⟨i, hi, hgi⟩ := hex
            exact Or.inl ⟨i, List.mem_range.mpr hi, hgi⟩
          · rw [if_neg h4]
            apply foldl_scanLoop_min_fin b _ (hs Mark.X true) (List.range 9)
              JsNum.posInf (fun i hi => List.mem_range.mp hi) (Or.inl rfl)
            obtain ⟨i, hi, hgi⟩ := hex
            exact Or.inl ⟨i, List.mem_range.mpr hi, hgi⟩

theorem minimax_isFin (b : Board) (d : ℕ) (m : Bool) (hb : b.length = 9) :
    ∃ n, minimax b d m = JsNum.fin n :=
  minimax_isFin_aux 9 b d m hb (emptyCount_le b)

theorem foldl_scanLoop_max_ge_acc (b : Board) (s : Nat → JsNum) :
    ∀ (L : List Nat) (acc : JsNum), jle acc (L.foldl (scanLoop b s jmax) acc) = true := by
  intro L
  induction L with
  | nil => intro acc; exact jle_refl acc
  | cons i L ihL =>
    intro acc
    rw [List.foldl_cons]
    by_cases hgi : b.getD i none = none
    · have hstep : scanLoop b s jmax acc i = jmax (s i) acc := by
        unfold scanLoop; rw [if_pos hgi]
      rw [hstep]
      exact jle_trans (jle_jmax_right (s i) acc) (ihL (jmax (s i) acc))
    · have hstep : scanLoop b s jmax acc i = acc := by
        unfold scanLoop; rw [if_neg hgi]
      rw [hstep]
      exact ihL acc

theorem foldl_scanLoop_max_ge_elem (b : Board) (s : Nat → JsNum) :
    ∀ (L : List Nat) (acc : JsNum) (i : Nat), i ∈ L → b.getD i none = none →
      jle (s i) (L.foldl (scanLoop b s jmax) acc) = true := by
  intro L
  induction L with
  | nil =>
    intro acc i hmem
    exact absurd hmem (List.not_mem_nil i)
  | cons j L ihL =>
    intro acc i hmem hgi
    rw [List.foldl_cons]
    rcases List.mem_cons.mp hmem with rfl | hmem2
    · have hstep : scanLoop b s jmax acc i = jmax (s i) acc := by
        unfold scanLoop; rw [if_pos hgi]
      rw [hstep]
      exact jle_trans (jle_jmax_left (s i) acc)
        (foldl_scanLoop_max_ge_acc b s L (jmax (s i) acc))
    · exact ihL (scanLoop b s jmax acc j) i hmem2 hgi

theorem foldl_scanLoop_max_attain (b : Board) (s : Nat → JsNum) :
    ∀ (L : List Nat) (acc : JsNum),
      L.foldl (scanLoop b s jmax) acc = acc ∨
      ∃ i ∈ L, b.getD i none = none ∧ L.foldl (scanLoop b s jmax) acc = s i := by
  intro L
  induction L with
  | nil => intro acc; exact Or.inl rfl
  | cons i L ihL =>
    intro acc
    rw [List.foldl_cons]
    by_cases hgi : b.getD i none = none
    · have hstep : scanLoop b s jmax acc i = jmax (s i) acc := by
        unfold scanLoop; rw [if_pos hgi]
      rw [hstep]
      rcases ihL (jmax (s i) acc) with heq | ⟨j, hmem, hgj, heq⟩
      · rcases jmax_cases (s i) acc with hm | hm
        · exact Or.inr ⟨i, List.mem_cons_self i L, hgi, heq.trans hm⟩
        · exact Or.inl (heq.trans hm)
      · exact Or.inr ⟨j, List.mem_cons_of_mem i hmem, hgj, heq⟩
    · have hstep : scanLoop b s jmax acc i = acc := by
        unfold scanLoop; rw [if_neg hgi]
      rw [hstep]
      rcases ihL acc with heq | ⟨j, hmem, hgj, heq⟩
      · exact Or.inl heq
      · exact Or.inr ⟨j, List.mem_cons_of_mem i hmem, hgj, heq⟩

theorem foldl_scanLoop_min_le_acc (b : Board) (s : Nat → JsNum) :
    ∀ (L : List Nat) (acc : JsNum), jle (L.foldl (scanLoop b s jmin) acc) acc = true := by
  intro L
  induction L with
  | nil => intro acc; exact jle_refl acc
  | cons i L ihL =>
    intro acc
    rw [List.foldl_cons]
    by_cases hgi : b.getD i none = none
    · have hstep : scanLoop b s jmin acc i = jmin (s i) acc := by
        unfold scanLoop; rw [if_pos hgi]
      rw [hstep]
      exact jle_trans (ihL (jmin (s i) acc)) (jle_jmin_right (s i) acc)
    · have hstep : scanLoop b s jmin acc i = acc := by
        unfold scanLoop; rw [if_neg hgi]
      rw [hstep]
      exact ihL acc

theorem foldl_scanLoop_min_le_elem (b : Board) (s : Nat → JsNum) :
    ∀ (L : List Nat) (acc : JsNum) (i : Nat), i ∈ L → b.getD i none = none →
      jle (L.foldl (scanLoop b s jmin) acc) (s i) = true := by
  intro L
  induction L with
  | nil =>
    intro acc i hmem
    exact absurd hmem (List.not_mem_nil i)
  | cons j L ihL =>
    intro acc i hmem hgi
    rw [List.foldl_cons]
    rcases List.mem_cons.mp hmem with rfl | hmem2
    · have hstep : scanLoop b s jmin acc i = jmin (s i) acc := by
        unfold scanLoop; rw [if_pos hgi]
      rw [hstep]
      exact jle_trans (foldl_scanLoop_min_le_acc b s L (jmin (s i) acc))
        (jle_jmin_left (s i) acc)
    · exact ihL (scanLoop b s jmin acc j) i hmem2 hgi

theorem foldl_scanLoop_min_attain (b : Board) (s : Nat → JsNum) :
    ∀ (L : List Nat) (acc : JsNum),
      L.foldl (scanLoop b s jmin) acc = acc ∨
      ∃ i ∈ L, b.getD i none = none ∧ L.foldl (scanLoop b s jmin) acc = s i := by
  intro L
  induction L with
  | nil => intro acc; exact Or.inl rfl
  | cons i L ihL =>
    intro acc
    rw [List.foldl_cons]
    by_cases hgi : b.getD i none = none
    · have hstep : scanLoop b s jmin acc i = jmin (s i) acc := by
        unfold scanLoop; rw [if_pos hgi]
      rw [hstep]
      rcases ihL (jmin (s i) acc) with heq | ⟨j, hmem, hgj, heq⟩
      · rcases jmin_cases (s i) acc with hm | hm
        · exact Or.inr ⟨i, List.mem_cons_self i L, hgi, heq.trans hm⟩
        · exact Or.inl (heq.trans hm)
      · exact Or.inr ⟨j, List.mem_cons_of_mem i hmem, hgj, heq⟩
    · have hstep : scanLoop b s jmin acc i = acc := by
        unfold scanLoop; rw [if_neg hgi]
      rw [hstep]
      rcases ihL acc with heq | ⟨j, hmem, hgj, heq⟩
      · exact Or.inl heq
      · exact Or.inr ⟨j, List.mem_cons_of_mem i hmem, hgj, heq⟩

/-! ### Characterization of the selection loop of `getMinimaxMove` -/

theorem chooseLoop_go (b : Board)
    (hfin : ∀ i : Nat, b.getD i none = none →
      minimax (b.set i (some Mark.O)) 0 false ≠ JsNum.negInf) :
    ∀ (L done : List Nat) (bs : JsNum) (bm : ℤ),
      (∀ j ∈ done, ∀ i ∈ L, j < i) →
      List.Pairwise (· < ·) L →
      ((bs = JsNum.negInf ∧ bm = -1 ∧ ∀ j ∈ done, ¬ b.getD j none = none) ∨
        (∃ j ∈ done, b.getD j none = none ∧ bm = (j : ℤ) ∧
          bs = minimax (b.set j (some Mark.O)) 0 false ∧
          (∀ k ∈ done, b.getD k none = none →
            jle (minimax (b.set k (some Mark.O)) 0 false)
              (minimax (b.set j (some Mark.O)) 0 false) = true) ∧
          (∀ k ∈ done, b.getD k none = none → k < j →
            jlt (minimax (b.set k (some Mark.O)) 0 false)
              (minimax (b.set j (some Mark.O)) 0 false) = true))) →
      (((L.foldl (chooseLoop b) (bs, bm)).1 = JsNum.negInf ∧
          (L.foldl (chooseLoop b) (bs, bm)).2 = -1 ∧
          ∀ j ∈ done ++ L, ¬ b.getD j none = none) ∨
        (∃ j ∈ done ++ L, b.getD j none = none ∧
          (L.foldl (chooseLoop b) (bs, bm)).2 = (j : ℤ) ∧
          (L.foldl (chooseLoop b) (bs, bm)).1 = minimax (b.set j (some Mark.O)) 0 false ∧
          (∀ k ∈ done ++ L, b.getD k none = none →
            jle (minimax (b.set k (some Mark.O)) 0 false)
              (minimax (b.set j (some Mark.O)) 0 false) = true) ∧
          (∀ k ∈ done ++ L, b.getD k none = none → k < j →
            jlt (minimax (b.set k (some Mark.O)) 0 false)
              (minimax (b.set j (some Mark.O)) 0 false) = true))) := by
  intro L
  induction L with
  | nil =>
    intro done bs bm _ _ hinv
    rw [List.foldl_nil, List.append_nil]
    exact hinv
  | cons i L ih =>
    intro done bs bm horder hsorted hinv
    rw [List.foldl_cons]
    have hiL : ∀ x ∈ L, i < x := (List.pairwise_cons.mp hsorted).1
    have hsorted2 : List.Pairwise (· < ·) L := (List.pairwise_cons.mp hsorted).2
    have horder2 : ∀ j ∈ done ++ [i], ∀ x ∈ L, j < x := by
      intro j hj x hx
      rcases List.mem_append.mp hj with hjd | hji
      · exact horder j hjd x (List.mem_cons_of_mem i hx)
      · have hje : j = i := by simpa using hji
        exact hje ▸ hiL x hx
    by_cases hgi : b.getD i none = none
    · by_cases hj : jlt bs (minimax (b.set i (some Mark.O)) 0 false) = true
      · have hstep : chooseLoop b (bs, bm) i =
            (minimax (b.set i (some Mark.O)) 0 false, (i : ℤ)) := by
          unfold chooseLoop
          rw [if_pos hgi]
          show (if jlt bs (minimax (b.set i (some Mark.O)) 0 false) then _ else _) = _
          rw [if_pos hj]
        rw [hstep]
        have hinv2 : (minimax (b.set i (some Mark.O)) 0 false = JsNum.negInf ∧
              (i : ℤ) = -1 ∧ ∀ j ∈ done ++ [i], ¬ b.getD j none = none) ∨
            (∃ j ∈ done ++ [i], b.getD j none = none ∧ (i : ℤ) = (j : ℤ) ∧
              minimax (b.set i (some Mark.O)) 0 false =
                minimax (b.set j (some Mark.O)) 0 false ∧
              (∀ k ∈ done ++ [i], b.getD k none = none →
                jle (minimax (b.set k (some Mark.O)) 0 false)
                  (minimax (b.set j (some Mark.O)) 0 false) = true) ∧
              (∀ k ∈ done ++ [i], b.getD k none = none → k < j →
                jlt (minimax (b.set k (some Mark.O)) 0 false)
                  (minimax (b.set j (some Mark.O)) 0 false) = true)) := by
          right
          refine ⟨i, by simp, hgi, rfl, rfl, ?_, ?_⟩
          · intro k hk hgk
            rcases List.mem_append.mp hk with hkd | hki
            · rcases hinv with ⟨hbs, _, hnone⟩ | ⟨j0, hj0d, _, _, hbs, hle0, _⟩
              · exact absurd hgk (hnone k hkd)
              · have h1 := hle0 k hkd hgk
                have h2 : jlt (minimax (b.set j0 (some Mark.O)) 0 false)
                    (minimax (b.set i (some Mark.O)) 0 false) = true := hbs ▸ hj
                exact jle_of_jlt (jlt_of_jle_of_jlt h1 h2)
            · have hke : k = i := by simpa using hki
              subst hke
              exact jle_refl _
          · intro k hk hgk hki
            rcases List.mem_append.mp hk with hkd | hkim
            · rcases hinv with ⟨hbs, _, hnone⟩ | ⟨j0, hj0d, _, _, hbs, hle0, _⟩
              · exact absurd hgk (hnone k hkd)
              · have h1 := hle0 k hkd hgk
                have h2 : jlt (minimax (b.set j0 (some Mark.O)) 0 false)
                    (minimax (b.set i (some Mark.O)) 0 false) = true := hbs ▸ hj
                exact jlt_of_jle_of_jlt h1 h2
            · have hke : k = i := by simpa using hkim
              subst hke
              exact absurd hki (lt_irrefl k)
        have hrec := ih (done ++ [i]) (minimax (b.set i (some Mark.O)) 0 false)
          (i : ℤ) horder2 hsorted2 hinv2
        simpa [List.append_assoc] using hrec
      · have hstep : chooseLoop b (bs, bm) i = (bs, bm) := by
          unfold chooseLoop
          rw [if_pos hgi]
          show (if jlt bs (minimax (b.set i (some Mark.O)) 0 false) then _ else _) = _
          rw [if_neg hj]
        rw [hstep]
        have hinv2 : (bs = JsNum.negInf ∧ bm = -1 ∧
              ∀ j ∈ done ++ [i], ¬ b.getD j none = none) ∨
            (∃ j ∈ done ++ [i], b.getD j none = none ∧ bm = (j : ℤ) ∧
              bs = minimax (b.set j (some Mark.O)) 0 false ∧
              (∀ k ∈ done ++ [i], b.getD k none = none →
                jle (minimax (b.set k (some Mark.O)) 0 false)
                  (minimax (b.set j (some Mark.O)) 0 false) = true) ∧
              (∀ k ∈ done ++ [i], b.getD k none = none → k < j →
                jlt (minimax (b.set k (some Mark.O)) 0 false)
                  (minimax (b.set j (some Mark.O)) 0 false) = true)) := by
          rcases hinv with ⟨hbs, hbm, hnone⟩ | ⟨j0, hj0d, hgj0, hbm, hbs, hle0, hlt0⟩
          · exfalso
            apply hj
            rw [hbs]
            exact (jlt_negInf_iff _).mpr (hfin i hgi)
          · right
            refine ⟨j0, List.mem_append.mpr (Or.inl hj0d), hgj0, hbm, hbs, ?_, ?_⟩
            · intro k hk hgk
              rcases List.mem_append.mp hk with hkd | hki
              · exact hle0 k hkd hgk
              · have hke : k = i := by simpa using hki
                subst hke
                have hj2 : jlt (minimax (b.set j0 (some Mark.O)) 0 false)
                    (minimax (b.set k (some Mark.O)) 0 false) = false := by
                  rw [← hbs]
                  simpa using hj
                exact jle_of_not_jlt hj2
            · intro k hk hgk hkj
              rcases List.mem_append.mp hk with hkd | hki
              · exact hlt0 k hkd hgk hkj
              · have hke : k = i := by simpa using hki
                subst hke
                exfalso
                have := horder j0 hj0d k (List.mem_cons_self k L)
                omega
        have hrec := ih (done ++ [i]) bs bm horder2 hsorted2 hinv2
        simpa [List.append_assoc] using hrec
    · have hstep : chooseLoop b (bs, bm) i = (bs, bm) := by
        unfold chooseLoop
        rw [if_neg hgi]
      rw [hstep]
      have hinv2 : (bs = JsNum.negInf ∧ bm = -1 ∧
            ∀ j ∈ done ++ [i], ¬ b.getD j none = none) ∨
          (∃ j ∈ done ++ [i], b.getD j none = none ∧ bm = (j : ℤ) ∧
            bs = minimax (b.set j (some Mark.O)) 0 false ∧
            (∀ k ∈ done ++ [i], b.getD k none = none →
              jle (minimax (b.set k (some Mark.O)) 0 false)
                (minimax (b.set j (some Mark.O)) 0 false) = true) ∧
            (∀ k ∈ done ++ [i], b.getD k none = none → k < j →
              jlt (minimax (b.set k (some Mark.O)) 0 false)
                (minimax (b.set j (some Mark.O)) 0 false) = true)) := by
        rcases hinv with ⟨hbs, hbm, hnone⟩ | ⟨j0, hj0d, hgj0, hbm, hbs, hle0, hlt0⟩
        · left
          refine ⟨hbs, hbm, ?_⟩
          intro j hjm
          rcases List.mem_append.mp hjm with hjd | hji
          · exact hnone j hjd
          · have hje : j = i := by simpa using hji
            exact hje ▸ hgi
        · right
          refine ⟨j0, List.mem_append.mpr (Or.inl hj0d), hgj0, hbm, hbs, ?_, ?_⟩
          · intro k hk hgk
            rcases List.mem_append.mp hk with hkd | hki
            · exact hle0 k hkd hgk
            · have hke : k = i := by simpa using hki
              exact absurd (hke ▸ hgk) hgi
          · intro k hk hgk hkj
            rcases List.mem_append.mp hk with hkd | hki
            · exact hlt0 k hkd hgk hkj
            · have hke : k = i := by simpa using hki
              exact absurd (hke ▸ hgk) hgi
      have hrec := ih (done ++ [i]) bs bm horder2 hsorted2 hinv2
      simpa [List.append_assoc] using hrec

theorem getMinimaxMove_spec (b : Board) (hb : b.length = 9)
    (hne : ∃ i, i < 9 ∧ b.getD i none = none) : SelectSpec b := by
  have hfin : ∀ i : Nat, b.getD i none = none →
      minimax (b.set i (some Mark.O)) 0 false ≠ JsNum.negInf := by
    intro i hgi
    obtain ⟨n, hn⟩ := minimax_isFin (b.set i (some Mark.O)) 0 false
      (by rw [List.length_set]; exact hb)
    rw [hn]
    simp
  have horder : ∀ j ∈ ([] : List Nat), ∀ i ∈ List.range 9, j < i := by simp
  have hinv : ((JsNum.negInf = JsNum.negInf ∧ (-1 : ℤ) = -1 ∧
        ∀ j ∈ ([] : List Nat), ¬ b.getD j none = none) ∨
      (∃ j ∈ ([] : List Nat), b.getD j none = none ∧ (-1 : ℤ) = (j : ℤ) ∧
        JsNum.negInf = minimax (b.set j (some Mark.O)) 0 false ∧
        (∀ k ∈ ([] : List Nat), b.getD k none = none →
          jle (minimax (b.set k (some Mark.O)) 0 false)
            (minimax (b.set j (some Mark.O)) 0 false) = true) ∧
        (∀ k ∈ ([] : List Nat), b.getD k none = none → k < j →
          jlt (minimax (b.set k (some Mark.O)) 0 false)
            (minimax (b.set j (some Mark.O)) 0 false) = true))) :=
    Or.inl ⟨rfl, rfl, by simp⟩
  have hgo := chooseLoop_go b hfin (List.range 9) [] JsNum.negInf (-1) horder
    (List.pairwise_lt_range 9) hinv
  rcases hgo with ⟨_, _, hnone⟩ | ⟨j, hjmem, hgj, hbm, _, hle, hlt⟩
  · obtain ⟨i, hi, hgi⟩ := hne
    exact absurd hgi (hnone i (by simpa using List.mem_range.mpr hi))
  · have hj9 : j < 9 := List.mem_range.mp (by simpa using hjmem)
    refine ⟨j, hj9, ?_, hgj, ?_, ?_⟩
    · show getMinimaxMove b = (j : ℤ)
      unfold getMinimaxMove
      exact hbm
    · intro i hi hgi
      exact hle i (by simpa using List.mem_range.mpr hi) hgi
    · intro i hi hgi hij
      exact hlt i (by simpa using List.mem_range.mpr hi) hgi hij

/-- **C3**: the recursive `score` function (`minimax` of `src/unnamed/part_001`)
satisfies the spec's minimax definition — terminal scoring `10 − depth` /
`depth − 10` / 0 according to the reported winner and fullness, and the
max/min over all empty cells of the score after placing the mover's mark with
`depth + 1` and the opposite role — and `getMinimaxMove` returns the first
empty index in scan order 0→8 attaining the strictly highest
`score(place 'O', 0, minimizing)`. -/
theorem c3_minimax_matches_spec (b : Board) (d : ℕ) (hb : b.length = 9) :
    MinimaxSpec b d ∧ ((∃ i, i < 9 ∧ b.getD i none = none) → SelectSpec b) := by
  constructor
  · refine ⟨?_, ?_, ?_, ?_⟩
    · intro h1 m
      rw [minimax_eq b d m hb, if_pos h1]
    · intro h2 m
      have h1 : ¬ (checkWinner b).1 = some Mark.O := by rw [h2]; simp
      rw [minimax_eq b d m hb, if_neg h1, if_pos h2]
    · intro h0 h3 m
      have h1 : ¬ (checkWinner b).1 = some Mark.O := by rw [h0]; simp
      have h2 : ¬ (checkWinner b).1 = some Mark.X := by rw [h0]; simp
      rw [minimax_eq b d m hb, if_neg h1, if_neg h2, if_pos h3]
    · intro h0 h3
      have h1 : ¬ (checkWinner b).1 = some Mark.O := by rw [h0]; simp
      have h2 : ¬ (checkWinner b).1 = some Mark.X := by rw [h0]; simp
      have h3f : ¬ isFull b = true := by rw [h3]; simp
      have hmax : minimax b d true = (List.range 9).foldl
          (scanLoop b (fun i => minimax (b.set i (some Mark.O)) (d + 1) false) jmax)
          JsNum.negInf := by
        rw [minimax_eq b d true hb, if_neg h1, if_neg h2, if_neg h3f, if_pos rfl]
      have hmin : minimax b d false = (List.range 9).foldl
          (scanLoop b (fun i => minimax (b.set i (some Mark.X)) (d + 1) true) jmin)
          JsNum.posInf := by
        rw [minimax_eq b d false hb, if_neg h1, if_neg h2, if_neg h3f,
          if_neg (by simp)]
      refine ⟨?_, ?_, ?_, ?_⟩
      · intro i hi hgi
        rw [hmax]
        exact foldl_scanLoop_max_ge_elem b _ (List.range 9) JsNum.negInf i
          (List.mem_range.mpr hi) hgi
      · rcases foldl_scanLoop_max_attain b
            (fun i => minimax (b.set i (some Mark.O)) (d + 1) false)
            (List.range 9) JsNum.negInf with heq | ⟨i, hmem, hgi, heq⟩
        · exfalso
          obtain ⟨n, hn⟩ := minimax_isFin b d true hb
          rw [hmax, heq] at hn
          exact JsNum.noConfusion hn
        · exact ⟨i, List.mem_range.mp hmem, hgi, hmax.trans heq⟩
      · intro i hi hgi
        rw [hmin]
        exact foldl_scanLoop_min_le_elem b _ (List.range 9) JsNum.posInf i
          (List.mem_range.mpr hi) hgi
      · rcases foldl_scanLoop_min_attain b
            (fun i => minimax (b.set i (some Mark.X)) (d + 1) true)
            (List.range 9) JsNum.posInf with heq | ⟨i, hmem, hgi, heq⟩
        · exfalso
          obtain ⟨n, hn⟩ := minimax_isFin b d false hb
          rw [hmin, heq] at hn
          exact JsNum.noConfusion hn
        · exact ⟨i, List.mem_range.mp hmem, hgi, hmin.trans heq⟩
  · intro hne
    exact getMinimaxMove_spec b hb hne

/-- Witness for C3 at the concrete board `[null,null,'O','O','X','X','X','X','O']`
and depth 0. -/
theorem c3_minimax_matches_spec_witness :
    c2Board.length = 9 ∧
    (MinimaxSpec c2Board 0 ∧
      ((∃ i, i < 9 ∧ c2Board.getD i none = none) → SelectSpec c2Board)) :=
  ⟨by decide, c3_minimax_matches_spec c2Board 0 (by decide)⟩

theorem availAux : ∀ (t : List Cell) (k : Nat),
    ((List.enumFrom k t).map fun p => if p.2 = none then ((p.1 : Nat) : ℤ) else -1).filter
      (fun i => i != -1) =
    ((List.range t.length).filter fun i => t.getD i none = none).map
      (fun i => Int.ofNat (i + k)) := by
  intro t
  induction t with
  | nil => intro k; rfl
  | cons c t iht =>
    intro k
    have htail : (((List.range t.length).map Nat.succ).filter
        fun i => decide ((c :: t).getD i none = none)) =
        ((List.range t.length).filter fun i => decide (t.getD i none = none)).map Nat.succ := by
      rw [List.filter_map]
      congr 1
    have hmapshift : (((List.range t.length).filter
          fun i => decide (t.getD i none = none)).map Nat.succ).map
          (fun i => Int.ofNat (i + k)) =
        ((List.range t.length).filter fun i => decide (t.getD i none = none)).map
          (fun i => Int.ofNat (i + (k + 1))) := by
      rw [List.map_map]
      apply List.map_congr_left
      intro x _
      show Int.ofNat ((Nat.succ x) + k) = Int.ofNat (x + (k + 1))
      congr 1
      omega
    rw [List.enumFrom_cons, List.map_cons, List.length_cons, List.range_succ_eq_map]
    dsimp only
    by_cases hc : c = none
    · have hd0 : decide ((c :: t).getD 0 none = none) = true := by
        rw [List.getD_cons_zero, hc]
        rfl
      have hk : (((k : Nat) : ℤ) != -1) = true := by
        simp only [bne_iff_ne, ne_eq]
        omega
      rw [if_pos hc]
      simp only [List.filter_cons]
      rw [if_pos hk, if_pos hd0, List.map_cons, htail, hmapshift, iht (k + 1)]
      congr 1
      show ((k : Nat) : ℤ) = Int.ofNat (0 + k)
      rw [Nat.zero_add]
      rfl
    · have hd0n : ¬(decide ((c :: t).getD 0 none = none) = true) := by
        simpa using hc
      have hm1 : ¬( (((-1 : ℤ)) != -1) = true ) := by decide
      rw [if_neg hc]
      simp only [List.filter_cons]
      rw [if_neg hm1, if_neg hd0n, htail, hmapshift, iht (k + 1)]


theorem availableMoves_eq (b : Board) :
    availableMoves b =
      ((List.range b.length).filter fun i => b.getD i none = none).map
        fun i : ℕ => (i : ℤ) := by
  show ((List.enumFrom 0 b).map fun p => if p.2 = none then ((p.1 : Nat) : ℤ) else -1).filter
      (fun i => i != -1) = _
  rw [availAux b 0]
  apply List.map_congr_left
  intro x _
  show Int.ofNat (x + 0) = ((x : Nat) : ℤ)
  rw [Nat.add_zero]
  rfl

theorem availableMoves_length_pos (b : Board) (hb : b.length = 9)
    (hne : ∃ i, i < 9 ∧ b.getD i none = none) : 0 < (availableMoves b).length := by
  obtain ⟨i, hi, hgi⟩ := hne
  rw [availableMoves_eq b, hb]
  apply List.length_pos_of_mem (a := (i : ℤ))
  exact List.mem_map.mpr ⟨i,
    List.mem_filter.mpr ⟨List.mem_range.mpr hi, by simpa using hgi⟩, rfl⟩

theorem availableMoves_mem (b : Board) (hb : b.length = 9) {x : ℤ}
    (hx : x ∈ availableMoves b) : ∃ j : ℕ, j < 9 ∧ x = (j : ℤ) ∧ b.getD j none = none := by
  rw [availableMoves_eq b, hb] at hx
  obtain ⟨j, hjf, hcast⟩ := List.mem_map.mp hx
  have hjm := List.mem_filter.mp hjf
  exact ⟨j, List.mem_range.mp hjm.1, hcast.symm, by simpa using hjm.2⟩

theorem randIndex_lt (n : Nat) (r2 : ℚ) (hpos : 0 < n) (h2a : 0 ≤ r2) (h2b : r2 < 1) :
    (⌊r2 * (n : ℚ)⌋).toNat < n := by
  have hnq : (0 : ℚ) < (n : ℚ) := by exact_mod_cast hpos
  have hmul : r2 * (n : ℚ) < (n : ℚ) := mul_lt_of_lt_one_left hnq h2b
  have hnn : 0 ≤ ⌊r2 * (n : ℚ)⌋ := Int.floor_nonneg.mpr (mul_nonneg h2a (le_of_lt hnq))
  have hlt : ⌊r2 * (n : ℚ)⌋ < (n : ℤ) := Int.floor_lt.mpr (by exact_mod_cast hmul)
  exact (Int.toNat_lt hnn).mpr hlt

/-- **C9**: with the two `Math.random()` draws passed explicitly, the
Easy-difficulty `getBestMove` delegates to the Hard selector when the first
draw is below 0.3, and otherwise returns the entry of the list of currently
empty cell indices (ascending scan order) selected by
`Math.floor(rand2 * length)` — an in-range index of that list. -/
theorem c9_easy_dispatch (b : Board) (c : Cache) (r1 r2 : ℚ) (hb : b.length = 9)
    (hne : ∃ i, i < 9 ∧ b.getD i none = none) (h2a : 0 ≤ r2) (h2b : r2 < 1) :
    (r1 < 3 / 10 →
      getBestMoveApp Difficulty.easy r1 r2 b c = getMinimaxMoveApp b c)
    ∧ (¬ r1 < 3 / 10 →
      availableMoves b =
        ((List.range 9).filter fun i => b.getD i none = none).map (fun i : ℕ => (i : ℤ))
      ∧ (⌊r2 * ((availableMoves b).length : ℚ)⌋).toNat < (availableMoves b).length
      ∧ (getBestMoveApp Difficulty.easy r1 r2 b c).1 =
          (availableMoves b).getD ((⌊r2 * ((availableMoves b).length : ℚ)⌋).toNat) (-1)
      ∧ (getBestMoveApp Difficulty.easy r1 r2 b c).1 ∈ availableMoves b) := by
  have hpos := availableMoves_length_pos b hb hne
  have hidx := randIndex_lt (availableMoves b).length r2 hpos h2a h2b
  constructor
  · intro hr
    unfold getBestMoveApp
    rw [if_pos rfl, if_pos hr]
  · intro hr
    have hval : (getBestMoveApp Difficulty.easy r1 r2 b c).1 =
        (availableMoves b).getD ((⌊r2 * ((availableMoves b).length : ℚ)⌋).toNat) (-1) := by
      unfold getBestMoveApp
      rw [if_pos rfl, if_neg hr]
    refine ⟨by rw [availableMoves_eq b, hb], hidx, hval, ?_⟩
    rw [hval, List.getD_eq_getElem (availableMoves b) (-1) hidx]
    exact List.getElem_mem hidx

/-- Witness for C9 at the board `[null,null,'O','O','X','X','X','X','O']`,
empty cache, `rand1 = 1` and `rand2 = 0`. -/
theorem c9_easy_dispatch_witness :
    c2Board.length = 9 ∧ (∃ i, i < 9 ∧ c2Board.getD i none = none) ∧
    (0 : ℚ) ≤ 0 ∧ (0 : ℚ) < 1 ∧
    (((1 : ℚ) < 3 / 10 →
      getBestMoveApp Difficulty.easy 1 0 c2Board [] = getMinimaxMoveApp c2Board [])
    ∧ (¬ (1 : ℚ) < 3 / 10 →
      availableMoves c2Board =
        ((List.range 9).filter fun i => c2Board.getD i none = none).map (fun i : ℕ => (i : ℤ))
      ∧ (⌊(0 : ℚ) * ((availableMoves c2Board).length : ℚ)⌋).toNat <
          (availableMoves c2Board).length
      ∧ (getBestMoveApp Difficulty.easy 1 0 c2Board []).1 =
          (availableMoves c2Board).getD
            ((⌊(0 : ℚ) * ((availableMoves c2Board).length : ℚ)⌋).toNat) (-1)
      ∧ (getBestMoveApp Difficulty.easy 1 0 c2Board []).1 ∈ availableMoves c2Board)) :=
  ⟨by decide, ⟨0, by decide, by decide⟩, le_refl 0, by norm_num,
    c9_easy_dispatch c2Board [] 1 0 (by decide) ⟨0, by decide, by decide⟩
      (le_refl 0) (by norm_num)⟩

/-! ### Move validity of the selector (C7) -/

/-- Every score held in a well-formed cache is finite. -/
theorem cacheGet_wf : ∀ (c : Cache), WFCache c → ∀ (k : String) (v : JsNum),
    cacheGet c k = some v → ∃ n, v = JsNum.fin n := by
  intro c
  induction c with
  | nil =>
    intro _ k v h
    simp [cacheGet] at h
  | cons kv t ih =>
    intro hwf k v h
    obtain ⟨k1, v1⟩ := kv
    have hwt : WFCache t := fun p hp => hwf p (List.mem_cons_of_mem (k1, v1) hp)
    simp only [cacheGet, List.lookup] at h
    split at h
    · injection h with hv
      subst hv
      exact hwf (k1, v1) (List.mem_cons_self (k1, v1) t)
    · exact ih hwt k v h

/-- Storing a finite score preserves well-formedness of the cache. -/
theorem WFCache_cacheSet {c : Cache} (hwf : WFCache c) (k : String) (n : ℤ) :
    WFCache (cacheSet c k (JsNum.fin n)) := by
  intro kv hkv
  rcases List.mem_cons.mp hkv with h | h
  · exact ⟨n, by rw [h]⟩
  · exact hwf kv h

/-- Invariant of the memoized search loop: starting from a well-formed cache
and a finite-or-seed running best, the loop keeps the cache well formed and
the running best finite-or-seed, and once a recursive call has happened (an
empty cell was scanned, or the running best was already finite) the running
best is finite. -/
theorem foldl_searchLoop_fin_wf (mark : Mark) (comb : JsNum → JsNum → JsNum) (seed : JsNum)
    (recCall : Board → Cache → JsNum × Board × Cache) (b : Board) (hb : b.length = 9)
    (hrecb : ∀ sq ch, (recCall sq ch).2.1 = sq)
    (hrec : ∀ sq ch, sq.length = 9 → WFCache ch →
      (∃ n, (recCall sq ch).1 = JsNum.fin n) ∧ WFCache (recCall sq ch).2.2)
    (hcomb : ∀ x y : JsNum, (∃ n, x = JsNum.fin n) → ((∃ n, y = JsNum.fin n) ∨ y = seed) →
      ∃ n, comb x y = JsNum.fin n) :
    ∀ (L : List Nat) (acc : JsNum) (ch : Cache), WFCache ch →
      ((∃ n, acc = JsNum.fin n) ∨ acc = seed) →
      (((∃ n, (L.foldl (searchLoop mark comb recCall) (acc, b, ch)).1 = JsNum.fin n) ∨
          (L.foldl (searchLoop mark comb recCall) (acc, b, ch)).1 = seed)
        ∧ WFCache (L.foldl (searchLoop mark comb recCall) (acc, b, ch)).2.2)
      ∧ (((∃ n, acc = JsNum.fin n) ∨ ∃ i ∈ L, b.getD i none = none) →
          ∃ n, (L.foldl (searchLoop mark comb recCall) (acc, b, ch)).1 = JsNum.fin n) := by
  intro L
  induction L with
  | nil =>
    intro acc ch hch hacc
    refine ⟨⟨hacc, hch⟩, ?_⟩
    rintro (hfin | ⟨i, hmem, _⟩)
    · exact hfin
    · exact absurd hmem (List.not_mem_nil i)
  | cons i L ihL =>
    intro acc ch hch hacc
    rw [List.foldl_cons]
    by_cases hg : b.getD i none = none
    · have hstep : searchLoop mark comb recCall (acc, b, ch) i =
          (comb (recCall (b.set i (some mark)) ch).1 acc, b,
            (recCall (b.set i (some mark)) ch).2.2) := by
        simp only [searchLoop]
        rw [if_pos hg, hrecb, set_restore b i (some mark) hg]
      obtain ⟨hr1, hr2⟩ := hrec (b.set i (some mark)) ch
        (by rw [List.length_set]; exact hb) hch
      have hacc2 : ∃ n, comb (recCall (b.set i (some mark)) ch).1 acc = JsNum.fin n :=
        hcomb _ _ hr1 hacc
      rw [hstep]
      have hres := ihL (comb (recCall (b.set i (some mark)) ch).1 acc)
        ((recCall (b.set i (some mark)) ch).2.2) hr2 (Or.inl hacc2)
      exact ⟨hres.1, fun _ => hres.2 (Or.inl hacc2)⟩
    · have hstep : searchLoop mark comb recCall (acc, b, ch) i = (acc, b, ch) := by
        simp only [searchLoop]
        rw [if_neg hg]
      rw [hstep]
      have hres := ihL acc ch hch hacc
      refine ⟨hres.1, ?_⟩
      rintro (hfin | ⟨j, hmem, hj⟩)
      · exact hres.2 (Or.inl hfin)
      · rcases List.mem_cons.mp hmem with rfl | hjL
        · exact absurd hj hg
        · exact hres.2 (Or.inr ⟨j, hjL, hj⟩)

/-- On a 9-cell board with a well-formed cache, the memoized `minimax`
returns a finite score and keeps the cache well formed (every stored score is
finite). -/
theorem minimaxAppF_fin_wf : ∀ (fuel : ℕ) (b : Board) (d : ℕ) (m : Bool) (c : Cache),
    b.length = 9 → WFCache c →
    (∃ n, (minimaxAppF fuel b d m c).1 = JsNum.fin n) ∧
      WFCache (minimaxAppF fuel b d m c).2.2 := by
  intro fuel
  induction fuel with
  | zero =>
    intro b d m c hb hwf
    exact ⟨⟨0, rfl⟩, hwf⟩
  | succ f ih =>
    intro b d m c hb hwf
    rw [minimaxAppF]
    show (∃ n, (appStep (minimaxAppF f) b d m c).1 = JsNum.fin n) ∧
      WFCache (appStep (minimaxAppF f) b d m c).2.2
    simp only [appStep]
    cases hcg : cacheGet c (joinKey b d m) with
    | some v => exact ⟨cacheGet_wf c hwf _ v hcg, hwf⟩
    | none =>
      by_cases h1 : (checkWinner b).1 = some Mark.O
      · rw [if_pos h1]
        exact ⟨⟨_, rfl⟩, WFCache_cacheSet hwf _ _⟩
      · rw [if_neg h1]
        by_cases h2 : (checkWinner b).1 = some Mark.X
        · rw [if_pos h2]
          exact ⟨⟨_, rfl⟩, WFCache_cacheSet hwf _ _⟩
        · rw [if_neg h2]
          by_cases h3 : isFull b = true
          · rw [if_pos h3]
            exact ⟨⟨0, rfl⟩, WFCache_cacheSet hwf _ _⟩
          · rw [if_neg h3]
            have h3f : isFull b = false := by
              revert h3
              cases isFull b <;> simp
            obtain ⟨i0, hi0, hgi0⟩ := exists_empty_of_not_full b hb h3f
            by_cases h4 : m = true
            · rw [if_pos h4]
              dsimp only
              have hres := foldl_searchLoop_fin_wf Mark.O jmax JsNum.negInf
                (fun sq ch => minimaxAppF f sq (d + 1) false ch) b hb
                (fun sq ch => minimaxAppF_board f sq (d + 1) false ch)
                (fun sq ch hsq hch => ih sq (d + 1) false ch hsq hch)
                (fun x y hx hy => jmax_fin hx hy.symm)
                (List.range 9) JsNum.negInf c hwf (Or.inr rfl)
              obtain ⟨n, hn⟩ := hres.2 (Or.inr ⟨i0, List.mem_range.mpr hi0, hgi0⟩)
              refine ⟨⟨n, hn⟩, ?_⟩
              rw [hn]
              exact WFCache_cacheSet hres.1.2 _ n
            · rw [if_neg h4]
              dsimp only
              have hres := foldl_searchLoop_fin_wf Mark.X jmin JsNum.posInf
                (fun sq ch => minimaxAppF f sq (d + 1) true ch) b hb
                (fun sq ch => minimaxAppF_board f sq (d + 1) true ch)
                (fun sq ch hsq hch => ih sq (d + 1) true ch hsq hch)
                (fun x y hx hy => jmin_fin hx hy.symm)
                (List.range 9) JsNum.posInf c hwf (Or.inr rfl)
              obtain ⟨n, hn⟩ := hres.2 (Or.inr ⟨i0, List.mem_range.mpr hi0, hgi0⟩)
              refine ⟨⟨n, hn⟩, ?_⟩
              rw [hn]
              exact WFCache_cacheSet hres.1.2 _ n

/-- Invariant of the selection loop of the memoized `getMinimaxMove`: the
running `(bestScore, bestMove)` is either still the initial
`(-Infinity, -1)` or a finite score together with an in-range empty cell
index; the cache stays well formed; and once some scanned cell is empty (or
the running best is already finite) the best move is an in-range empty cell
index. -/
theorem foldl_selectLoop_valid (b : Board) (hb : b.length = 9) :
    ∀ (L : List Nat) (acc : JsNum × ℤ) (ch : Cache), WFCache ch → (∀ i ∈ L, i < 9) →
      ((acc.1 = JsNum.negInf ∧ acc.2 = -1) ∨
        ((∃ n, acc.1 = JsNum.fin n) ∧
          ∃ j : ℕ, j < 9 ∧ acc.2 = (j : ℤ) ∧ b.getD j none = none)) →
      ((((L.foldl selectLoop (acc, b, ch)).1.1 = JsNum.negInf ∧
            (L.foldl selectLoop (acc, b, ch)).1.2 = -1) ∨
          ((∃ n, (L.foldl selectLoop (acc, b, ch)).1.1 = JsNum.fin n) ∧
            ∃ j : ℕ, j < 9 ∧ (L.foldl selectLoop (acc, b, ch)).1.2 = (j : ℤ) ∧
              b.getD j none = none))
        ∧ WFCache (L.foldl selectLoop (acc, b, ch)).2.2)
      ∧ (((∃ n, acc.1 = JsNum.fin n) ∨ ∃ i ∈ L, b.getD i none = none) →
          ∃ j : ℕ, j < 9 ∧ (L.foldl selectLoop (acc, b, ch)).1.2 = (j : ℤ) ∧
            b.getD j none = none) := by
  intro L
  induction L with
  | nil =>
    intro acc ch hch hL hacc
    refine ⟨⟨hacc, hch⟩, ?_⟩
    rintro (hfin | ⟨i, hmem, _⟩)
    · rcases hacc with ⟨h1, _⟩ | ⟨_, hj⟩
      · obtain ⟨n, hn⟩ := hfin
        rw [h1] at hn
        exact absurd hn (by simp)
      · exact hj
    · exact absurd hmem (List.not_mem_nil i)
  | cons i L ihL =>
    intro acc ch hch hL hacc
    have hi9 : i < 9 := hL i (List.mem_cons_self i L)
    have hLtail : ∀ j ∈ L, j < 9 := fun j hj => hL j (List.mem_cons_of_mem i hj)
    rw [List.foldl_cons]
    by_cases hg : b.getD i none = none
    · obtain ⟨hr1, hr2⟩ := minimaxAppF_fin_wf 10 (b.set i (some Mark.O)) 0 false ch
        (by rw [List.length_set]; exact hb) hch
      by_cases hj : jlt acc.1 (minimaxAppF 10 (b.set i (some Mark.O)) 0 false ch).1 = true
      · have hstep : selectLoop (acc, b, ch) i =
            (((minimaxAppF 10 (b.set i (some Mark.O)) 0 false ch).1, (i : ℤ)), b,
              (minimaxAppF 10 (b.set i (some Mark.O)) 0 false ch).2.2) := by
          simp only [selectLoop]
          rw [if_pos hg, if_pos hj, minimaxAppF_board,
            set_restore b i (some Mark.O) hg]
        rw [hstep]
        have hvalid : ((((minimaxAppF 10 (b.set i (some Mark.O)) 0 false ch).1,
              (i : ℤ)) : JsNum × ℤ).1 = JsNum.negInf ∧
              (((minimaxAppF 10 (b.set i (some Mark.O)) 0 false ch).1, (i : ℤ)) :
                JsNum × ℤ).2 = -1) ∨
            ((∃ n, (((minimaxAppF 10 (b.set i (some Mark.O)) 0 false ch).1, (i : ℤ)) :
                JsNum × ℤ).1 = JsNum.fin n) ∧
              ∃ j : ℕ, j < 9 ∧ (((minimaxAppF 10 (b.set i (some Mark.O)) 0 false ch).1,
                (i : ℤ)) : JsNum × ℤ).2 = (j : ℤ) ∧ b.getD j none = none) :=
          Or.inr ⟨hr1, i, hi9, rfl, hg⟩
        have hres := ihL ((minimaxAppF 10 (b.set i (some Mark.O)) 0 false ch).1, (i : ℤ))
          (minimaxAppF 10 (b.set i (some Mark.O)) 0 false ch).2.2 hr2 hLtail hvalid
        exact ⟨hres.1, fun _ => hres.2 (Or.inl hr1)⟩
      · have hstep : selectLoop (acc, b, ch) i =
            (acc, b, (minimaxAppF 10 (b.set i (some Mark.O)) 0 false ch).2.2) := by
          simp only [selectLoop]
          rw [if_pos hg, if_neg hj, minimaxAppF_board,
            set_restore b i (some Mark.O) hg]
        have haccfin : ∃ n, acc.1 = JsNum.fin n := by
          rcases hacc with ⟨h1, _⟩ | ⟨hf, _⟩
          · exfalso
            apply hj
            obtain ⟨n, hn⟩ := hr1
            rw [h1, hn]
            rfl
          · exact hf
        rw [hstep]
        have hres := ihL acc
          (minimaxAppF 10 (b.set i (some Mark.O)) 0 false ch).2.2 hr2 hLtail hacc
        exact ⟨hres.1, fun _ => hres.2 (Or.inl haccfin)⟩
    · have hstep : selectLoop (acc, b, ch) i = (acc, b, ch) := by
        simp only [selectLoop]
        rw [if_neg hg]
      rw [hstep]
      have hres := ihL acc ch hch hLtail hacc
      refine ⟨hres.1, ?_⟩
      rintro (hfin | ⟨j, hmem, hj⟩)
      · exact hres.2 (Or.inl hfin)
      · rcases List.mem_cons.mp hmem with rfl | hjL
        · exact absurd hj hg
        · exact hres.2 (Or.inr ⟨j, hjL, hj⟩)

/-- On a 9-cell board with an empty cell and a well-formed cache, the memoized
`getMinimaxMove` returns an in-range empty cell index. -/
theorem getMinimaxMoveApp_valid (b : Board) (c : Cache) (hb : b.length = 9)
    (hwf : WFCache c) (hne : ∃ i, i < 9 ∧ b.getD i none = none) :
    ∃ j : ℕ, j < 9 ∧ (getMinimaxMoveApp b c).1 = (j : ℤ) ∧ b.getD j none = none := by
  unfold getMinimaxMoveApp
  dsimp only
  obtain ⟨i, hi, hgi⟩ := hne
  have hres := foldl_selectLoop_valid b hb (List.range 9) (JsNum.negInf, -1) c hwf
    (fun j hj => List.mem_range.mp hj) (Or.inl ⟨rfl, rfl⟩)
  exact hres.2 (Or.inr ⟨i, List.mem_range.mpr hi, hgi⟩)

/-- **C7**: for every 9-cell board with at least one empty cell, either
difficulty, any random draws (the uniform draw in `[0,1)`), and any
well-formed cache (every score the App ever stores is finite), the index
returned by `getBestMove` is in range 0–8 and the cell there is empty — the
selector never returns an occupied cell. -/
theorem c7_selector_returns_empty_cell (diff : Difficulty) (r1 r2 : ℚ) (b : Board)
    (c : Cache) (hb : b.length = 9) (hwf : WFCache c)
    (hne : ∃ i, i < 9 ∧ b.getD i none = none) (h2a : 0 ≤ r2) (h2b : r2 < 1) :
    ∃ j : ℕ, j < 9 ∧ (getBestMoveApp diff r1 r2 b c).1 = (j : ℤ) ∧
      b.getD j none = none := by
  unfold getBestMoveApp
  split_ifs with h1 h2
  · exact getMinimaxMoveApp_valid b c hb hwf hne
  · dsimp only
    have hpos := availableMoves_length_pos b hb hne
    have hidx := randIndex_lt (availableMoves b).length r2 hpos h2a h2b
    have hmem : (availableMoves b).getD
        ((⌊r2 * ((availableMoves b).length : ℚ)⌋).toNat) (-1) ∈ availableMoves b := by
      rw [List.getD_eq_getElem (availableMoves b) (-1) hidx]
      exact List.getElem_mem hidx
    obtain ⟨j, hj9, hcast, hempty⟩ := availableMoves_mem b hb hmem
    exact ⟨j, hj9, hcast, hempty⟩
  · exact getMinimaxMoveApp_valid b c hb hwf hne

/-- Witness for C7 at the board `[null,null,'O','O','X','X','X','X','O']`,
Hard difficulty, both draws 0, empty cache. -/
theorem c7_selector_returns_empty_cell_witness :
    c2Board.length = 9 ∧ WFCache ([] : Cache) ∧
    (∃ i, i < 9 ∧ c2Board.getD i none = none) ∧ (0 : ℚ) ≤ 0 ∧ (0 : ℚ) < 1 ∧
    ∃ j : ℕ, j < 9 ∧ (getBestMoveApp Difficulty.hard 0 0 c2Board []).1 = (j : ℤ) ∧
      c2Board.getD j none = none :=
  ⟨by decide, fun kv h => absurd h (List.not_mem_nil kv), ⟨0, by decide, by decide⟩,
    le_refl 0, by norm_num,
    c7_selector_returns_empty_cell Difficulty.hard 0 0 c2Board [] (by decide)
      (fun kv h => absurd h (List.not_mem_nil kv)) ⟨0, by decide, by decide⟩
      (le_refl 0) (by norm_num)⟩

/-! ### The draw sentinel (C10) -/

/-- Placing a mark at an empty cell raises the matching count by one and
leaves the other count unchanged. -/
theorem countP_set : ∀ (b : Board) (i : Nat) (v : Cell) (p : Cell → Bool),
    i < b.length → b.getD i none = none → p none = false →
    (b.set i v).countP p = b.countP p + (if p v then 1 else 0)
  | [], i, _, _, hi, _, _ => absurd hi (by simp)
  | c :: t, 0, v, p, _, hg, hpn => by
    have hc : c = none := by simpa using hg
    subst hc
    simp [List.countP_cons, hpn]
  | c :: t, i + 1, v, p, hi, hg, hpn => by
    have hit : i < t.length := by
      simp only [List.length_cons] at hi
      omega
    have ht := countP_set t i v p hit (by simpa using hg) hpn
    simp only [List.set_cons_succ, List.countP_cons, ht]
    omega

/-- On a full board every cell is `'X'` or `'O'`, so the two counts add up to
the board length. -/
theorem countX_add_countO : ∀ (b : Board), isFull b = true →
    countX b + countO b = b.length := by
  intro b
  induction b with
  | nil => intro _; rfl
  | cons c t ih =>
    intro hf
    unfold isFull at hf
    rw [List.all_cons, Bool.and_eq_true] at hf
    have hht := ih hf.2
    have hc := hf.1
    unfold countX countO at hht ⊢
    simp only [List.countP_cons, List.length_cons]
    cases c with
    | none => simp at hc
    | some m => cases m <;> simp <;> omega

/-- A player click preserves the controller invariant. -/
theorem inv_click (s : GState) (i : Nat) (hinv : CInv s) (hi : i < 9)
    (hg : s.board.getD i none = none) (hw : s.winner = none) :
    CInv (clickStep s i) := by
  obtain ⟨hlen, hcp, hwn, _⟩ := hinv
  obtain ⟨hcw, _, hpx, hpo⟩ := hwn hw
  have hil : i < s.board.length := by
    rw [hlen]
    exact hi
  have hcX : countX (s.board.set i (some Mark.X)) = countX s.board + 1 := by
    unfold countX
    rw [countP_set s.board i (some Mark.X) (fun c => c = some Mark.X) hil hg rfl]
    simp
  have hcXO : countO (s.board.set i (some Mark.X)) = countO s.board := by
    unfold countO
    rw [countP_set s.board i (some Mark.X) (fun c => c = some Mark.O) hil hg rfl]
    simp
  have hcO : countO (s.board.set i (some Mark.O)) = countO s.board + 1 := by
    unfold countO
    rw [countP_set s.board i (some Mark.O) (fun c => c = some Mark.O) hil hg rfl]
    simp
  have hcOX : countX (s.board.set i (some Mark.O)) = countX s.board := by
    unfold countX
    rw [countP_set s.board i (some Mark.O) (fun c => c = some Mark.X) hil hg rfl]
    simp
  rcases hcp with hcur | hcur
  · -- X to move
    have hlen2 : (s.board.set i (some Mark.X)).length = 9 := by
      rw [List.length_set]
      exact hlen
    cases hres : (checkWinner (s.board.set i (some Mark.X))).1 with
    | some w =>
      have hvw : (some Mark.X : Cell) = some w := checkWinner_set_value hil hcw hres
      have hXw : Mark.X = w := by injection hvw
      have hstep : clickStep s i = { s with board := s.board.set i (some Mark.X), winner := some w, winningLine := (checkWinner (s.board.set i (some Mark.X))).2 } := by
        unfold clickStep
        dsimp only
        rw [hcur, hres]
      rw [hstep]
      refine ⟨hlen2, Or.inl hcur, fun h => absurd h (by simp), fun w2 hw2 => ?_⟩
      have h2 : some w = some w2 := hw2
      have hww2 : w = w2 := by injection h2
      subst hww2
      left
      refine ⟨hres, fun _ => ?_, fun hwo => ?_⟩
      · show countX (s.board.set i (some Mark.X)) = countO (s.board.set i (some Mark.X)) + 1
        rw [hcX, hcXO, hpx hcur]
      · rw [← hXw] at hwo
        exact absurd hwo (by simp)
    | none =>
      by_cases hfull : isFull (s.board.set i (some Mark.X)) = true
      · have hstep : clickStep s i = { s with board := s.board.set i (some Mark.X), winner := some Mark.O } := by
          unfold clickStep
          dsimp only
          rw [hcur, hres, if_pos hfull]
        rw [hstep]
        refine ⟨hlen2, Or.inl hcur, fun h => absurd h (by simp), fun w2 hw2 => ?_⟩
        have h2 : some Mark.O = some w2 := hw2
        have hww2 : Mark.O = w2 := by injection h2
        right
        exact ⟨hww2.symm, hfull, hres⟩
      · have hnf2 : isFull (s.board.set i (some Mark.X)) = false := by
          revert hfull
          cases isFull (s.board.set i (some Mark.X)) <;> simp
        have hstep : clickStep s i = { s with board := s.board.set i (some Mark.X), currentPlayer := some Mark.O } := by
          unfold clickStep
          dsimp only
          rw [hcur, hres, if_neg hfull, if_pos rfl]
        rw [hstep]
        refine ⟨hlen2, Or.inr rfl, fun _ => ⟨hres, hnf2, fun hbad => ?_, fun _ => ?_⟩,
          fun w2 hw2 => ?_⟩
        · have h2 : (some Mark.O : Cell) = some Mark.X := hbad
          exact absurd h2 (by simp)
        · show countX (s.board.set i (some Mark.X)) = countO (s.board.set i (some Mark.X)) + 1
          rw [hcX, hcXO, hpx hcur]
        · have h2 : s.winner = some w2 := hw2
          rw [hw] at h2
          exact absurd h2 (by simp)
  · -- O to move
    have hlen2 : (s.board.set i (some Mark.O)).length = 9 := by
      rw [List.length_set]
      exact hlen
    have hXO : ¬ ((some Mark.O : Cell) = some Mark.X) := by simp
    cases hres : (checkWinner (s.board.set i (some Mark.O))).1 with
    | some w =>
      have hvw : (some Mark.O : Cell) = some w := checkWinner_set_value hil hcw hres
      have hOw : Mark.O = w := by injection hvw
      have hstep : clickStep s i = { s with board := s.board.set i (some Mark.O), winner := some w, winningLine := (checkWinner (s.board.set i (some Mark.O))).2 } := by
        unfold clickStep
        dsimp only
        rw [hcur, hres]
      rw [hstep]
      refine ⟨hlen2, Or.inr hcur, fun h => absurd h (by simp), fun w2 hw2 => ?_⟩
      have h2 : some w = some w2 := hw2
      have hww2 : w = w2 := by injection h2
      subst hww2
      left
      refine ⟨hres, fun hwx => ?_, fun _ => ?_⟩
      · rw [← hOw] at hwx
        exact absurd hwx (by simp)
      · show countX (s.board.set i (some Mark.O)) = countO (s.board.set i (some Mark.O))
        rw [hcOX, hcO, hpo hcur]
    | none =>
      by_cases hfull : isFull (s.board.set i (some Mark.O)) = true
      · have hstep : clickStep s i = { s with board := s.board.set i (some Mark.O), winner := some Mark.O } := by
          unfold clickStep
          dsimp only
          rw [hcur, hres, if_pos hfull]
        rw [hstep]
        refine ⟨hlen2, Or.inr hcur, fun h => absurd h (by simp), fun w2 hw2 => ?_⟩
        have h2 : some Mark.O = some w2 := hw2
        have hww2 : Mark.O = w2 := by injection h2
        right
        exact ⟨hww2.symm, hfull, hres⟩
      · have hnf2 : isFull (s.board.set i (some Mark.O)) = false := by
          revert hfull
          cases isFull (s.board.set i (some Mark.O)) <;> simp
        have hstep : clickStep s i = { s with board := s.board.set i (some Mark.O), currentPlayer := some Mark.X } := by
          unfold clickStep
          dsimp only
          rw [hcur, hres, if_neg hfull, if_neg hXO]
        rw [hstep]
        refine ⟨hlen2, Or.inl rfl, fun _ => ⟨hres, hnf2, fun _ => ?_, fun hbad => ?_⟩,
          fun w2 hw2 => ?_⟩
        · show countX (s.board.set i (some Mark.O)) = countO (s.board.set i (some Mark.O))
          rw [hcOX, hcO, hpo hcur]
        · have h2 : (some Mark.X : Cell) = some Mark.O := hbad
          exact absurd h2 (by simp)
        · have h2 : s.winner = some w2 := hw2
          rw [hw] at h2
          exact absurd h2 (by simp)

/-- A CPU move preserves the controller invariant. -/
theorem inv_cpu (s : GState) (m : Nat) (hinv : CInv s)
    (hcur : s.currentPlayer = some Mark.O) (hw : s.winner = none) (hm : m < 9)
    (hg : s.board.getD m none = none) : CInv (cpuStep s m) := by
  obtain ⟨hlen, _, hwn, _⟩ := hinv
  obtain ⟨hcw, _, _, hpo⟩ := hwn hw
  have hml : m < s.board.length := by
    rw [hlen]
    exact hm
  have hlen2 : (s.board.set m (some Mark.O)).length = 9 := by
    rw [List.length_set]
    exact hlen
  have hcO : countO (s.board.set m (some Mark.O)) = countO s.board + 1 := by
    unfold countO
    rw [countP_set s.board m (some Mark.O) (fun c => c = some Mark.O) hml hg rfl]
    simp
  have hcOX : countX (s.board.set m (some Mark.O)) = countX s.board := by
    unfold countX
    rw [countP_set s.board m (some Mark.O) (fun c => c = some Mark.X) hml hg rfl]
    simp
  cases hres : (checkWinner (s.board.set m (some Mark.O))).1 with
  | some w =>
    have hvw : (some Mark.O : Cell) = some w := checkWinner_set_value hml hcw hres
    have hOw : Mark.O = w := by injection hvw
    have hstep : cpuStep s m = { s with board := s.board.set m (some Mark.O), winner := some w, winningLine := (checkWinner (s.board.set m (some Mark.O))).2 } := by
      unfold cpuStep
      dsimp only
      rw [hres]
    rw [hstep]
    refine ⟨hlen2, Or.inr hcur, fun h => absurd h (by simp), fun w2 hw2 => ?_⟩
    have h2 : some w = some w2 := hw2
    have hww2 : w = w2 := by injection h2
    subst hww2
    left
    refine ⟨hres, fun hwx => ?_, fun _ => ?_⟩
    · rw [← hOw] at hwx
      exact absurd hwx (by simp)
    · show countX (s.board.set m (some Mark.O)) = countO (s.board.set m (some Mark.O))
      rw [hcOX, hcO, hpo hcur]
  | none =>
    by_cases hfull : isFull (s.board.set m (some Mark.O)) = true
    · have hstep : cpuStep s m = { s with board := s.board.set m (some Mark.O), winner := some Mark.O } := by
        unfold cpuStep
        dsimp only
        rw [hres, if_pos hfull]
      rw [hstep]
      refine ⟨hlen2, Or.inr hcur, fun h => absurd h (by simp), fun w2 hw2 => ?_⟩
      have h2 : some Mark.O = some w2 := hw2
      have hww2 : Mark.O = w2 := by injection h2
      right
      exact ⟨hww2.symm, hfull, hres⟩
    · have hnf2 : isFull (s.board.set m (some Mark.O)) = false := by
        revert hfull
        cases isFull (s.board.set m (some Mark.O)) <;> simp
      have hstep : cpuStep s m = { s with board := s.board.set m (some Mark.O), currentPlayer := some Mark.X } := by
        unfold cpuStep
        dsimp only
        rw [hres, if_neg hfull]
      rw [hstep]
      refine ⟨hlen2, Or.inl rfl, fun _ => ⟨hres, hnf2, fun _ => ?_, fun hbad => ?_⟩,
        fun w2 hw2 => ?_⟩
      · show countX (s.board.set m (some Mark.O)) = countO (s.board.set m (some Mark.O))
        rw [hcOX, hcO, hpo hcur]
      · have h2 : (some Mark.X : Cell) = some Mark.O := hbad
        exact absurd h2 (by simp)
      · have h2 : s.winner = some w2 := hw2
        rw [hw] at h2
        exact absurd h2 (by simp)

/-- Every reachable controller state satisfies the invariant. -/
theorem inv_reaches (mode : GameMode) (s : GState) (h : Reaches mode s) : CInv s := by
  induction h with
  | init =>
    refine ⟨by decide, Or.inl rfl, fun _ => ?_, fun w2 hw2 => ?_⟩
    · exact ⟨by decide, by decide, fun _ => by decide, fun hx => absurd hx (by decide)⟩
    · exact absurd (show (none : Cell) = some w2 from hw2) (by simp)
  | click s i hr hi hg hw hmode ih => exact inv_click s i ih hi hg hw
  | cpu s m hr hmode hcur hw hm hg ih => exact inv_cpu s m ih hcur hw hm hg

/-- **C10**: in every reachable controller state (either mode), the derived
`isDraw` predicate of `src/src/App.tsx` line 357 — `winner === 'O'` and the
board full — holds exactly on genuine draws, i.e. full boards with no
complete line: the draw sentinel `setWinner('O')` is unambiguous because `O`
can never place the ninth mark (turn alternation gives a genuine `O` win
equal `X`/`O` counts, impossible on a full 9-cell board). -/
theorem c10_draw_sentinel_unambiguous (mode : GameMode) (s : GState)
    (hr : Reaches mode s) :
    isDraw s ↔ (isFull s.board = true ∧ (checkWinner s.board).1 = none) := by
  obtain ⟨hlen, _, hwn, hws⟩ := inv_reaches mode s hr
  constructor
  · rintro ⟨hwO, hfull⟩
    refine ⟨hfull, ?_⟩
    rcases hws Mark.O hwO with ⟨_, _, hpar⟩ | ⟨_, _, hcwn⟩
    · exfalso
      have hsum := countX_add_countO s.board hfull
      rw [hlen] at hsum
      have heq := hpar rfl
      omega
    · exact hcwn
  · rintro ⟨hfull, hcwn⟩
    cases hwcase : s.winner with
    | none =>
      obtain ⟨_, hnf, _, _⟩ := hwn hwcase
      rw [hfull] at hnf
      exact absurd hnf (by simp)
    | some w =>
      rcases hws w hwcase with ⟨hcww, _, _⟩ | ⟨hwO, _, _⟩
      · rw [hcwn] at hcww
        exact absurd hcww (by simp)
      · rw [hwO] at hwcase
        exact ⟨hwcase, hfull⟩

/-- Witness for C10 at the initial state (PvP mode), reached by
`Reaches.init`. -/
theorem c10_draw_sentinel_unambiguous_witness :
    isDraw initState ↔
      (isFull initState.board = true ∧ (checkWinner initState.board).1 = none) :=
  c10_draw_sentinel_unambiguous GameMode.pvp initState Reaches.init

end TTT
